import Mathlib

set_option maxRecDepth 10000

namespace MdToEnex

/-!
Shallow embedding of the markdown-to-enex conversion pipeline
(`markdown_to_enex` Python package).  Strings are modelled as `List Char`
(with `String` wrappers at the interface), Python regex substitutions as
explicit left-to-right scanners, dictionaries as insertion-ordered
association lists, and the filesystem / hashlib / PIL boundaries as
abstract function parameters.
-/

/-! ## Core string machinery (Python-like operations on `List Char`) -/

/-- `pstarts p s` holds when `p` is a leading segment of `s`. -/
def pstarts : List Char → List Char → Bool
  | [], _ => true
  | _ :: _, [] => false
  | a :: p, b :: s => a == b && pstarts p s

/-- Leftmost-occurrence split: `splitFirst p s = some (a, b)` when `s = a ++ p ++ b`
and no occurrence of `p` starts inside `a`.  Models leftmost regex search /
Python `str.find`. -/
def splitFirst (p : List Char) : List Char → Option (List Char × List Char)
  | [] => if pstarts p [] then some ([], []) else none
  | c :: s =>
    if pstarts p (c :: s) then some ([], (c :: s).drop p.length)
    else (splitFirst p s).map (fun ab => (c :: ab.1, ab.2))

/-- Substring test. -/
def strContainsL (p s : List Char) : Bool := (splitFirst p s).isSome

/-- Substring test on `String`. -/
def strContains (s p : String) : Bool := strContainsL p.data s.data

/-- Fuel-driven core of the substitution scanner, structurally recursive so
that concrete inputs evaluate inside the kernel.  The length guard keeps the
supplied fuel provably sufficient; every matcher used in this development
consumes at least one character when it matches, so the guard never fires. -/
def scanSubF (m : List Char → Option (List Char × List Char)) :
    Nat → List Char → List Char
  | _, [] => []
  | 0, s => s
  | fuel+1, c :: s =>
    match m (c :: s) with
    | some (r, t) =>
      if t.length ≤ s.length then r ++ scanSubF m fuel t else r ++ scanSubF m fuel s
    | none => c :: scanSubF m fuel s

/-- One-pass regex-substitution driver: at each position try the anchored
matcher; on a match emit its replacement and continue after the matched
region (matched regions are never rescanned, exactly as with Python
`re.sub`). -/
def scanSub (m : List Char → Option (List Char × List Char)) (s : List Char) : List Char :=
  scanSubF m s.length s

/-- Fuel-driven core of the lookbehind-aware scanner. -/
def scanSubCtxF (m : Option Char → List Char → Option (List Char × List Char)) :
    Nat → Option Char → List Char → List Char
  | _, _, [] => []
  | 0, _, s => s
  | fuel+1, prev, c :: s =>
    match m prev (c :: s) with
    | some (r, t) =>
      if t.length ≤ s.length then r ++ scanSubCtxF m fuel (some c) t
      else r ++ scanSubCtxF m fuel (some c) s
    | none => c :: scanSubCtxF m fuel (some c) s

/-- Variant of `scanSub` whose matcher also sees the character immediately
before the current position (`none` at the start of the string); used for
regex lookbehind. -/
def scanSubCtx (m : Option Char → List Char → Option (List Char × List Char))
    (prev : Option Char) (s : List Char) : List Char :=
  scanSubCtxF m s.length prev s

/-- Matcher for a fixed literal pattern (used to model Python `str.replace`). -/
def litMatcher (p r : List Char) (s : List Char) : Option (List Char × List Char) :=
  if p ≠ [] && pstarts p s then some (r, s.drop p.length) else none

/-- Python `str.replace` (all occurrences, leftmost, non-overlapping). -/
def replaceAll (s p r : List Char) : List Char := scanSub (litMatcher p r) s

/-- Python whitespace class (`\s` over the ASCII range; the pipeline's inputs
and patterns only exercise these). -/
def isPyWs (c : Char) : Bool :=
  c == ' ' || c == '\t' || c == '\n' || c == '\r' || c == '\x0b' || c == '\x0c'

/-- Python `str.lstrip()` (ASCII whitespace). -/
def pyLstrip (s : List Char) : List Char := s.dropWhile isPyWs

/-- Python `str.rstrip()` (ASCII whitespace). -/
def pyRstrip (s : List Char) : List Char := (s.reverse.dropWhile isPyWs).reverse

/-- Python `str.strip()` (ASCII whitespace). -/
def pyStrip (s : List Char) : List Char := pyRstrip (pyLstrip s)

/-- Python `str.lower()` restricted to ASCII letters (the pipeline only
lowercases frontmatter keys, which are ASCII in every exercised path). -/
def toLowerAscii (c : Char) : Char :=
  if 'A' ≤ c ∧ c ≤ 'Z' then Char.ofNat (c.toNat + 32) else c

def pyLower (s : List Char) : List Char := s.map toLowerAscii

/-- Python `str.split(sep)` for a single-character separator
(`"a,b,".split(',') = ['a','b','']`). -/
def pySplitChar (sep : Char) (s : List Char) : List (List Char) :=
  match s with
  | [] => [[]]
  | c :: rest =>
    let tails := pySplitChar sep rest
    if c == sep then [] :: tails
    else
      match tails with
      | [] => [[c]]
      | t :: ts => (c :: t) :: ts

/-- Python `str.split('\n')` specialisation. -/
def pySplitLines (s : List Char) : List (List Char) := pySplitChar '\n' s

/-- `pathlib.Path(s).name`: last path component ('.' components and empty
components are dropped by pathlib's normalisation). -/
def pathName (s : List Char) : List Char :=
  let comps := (pySplitChar '/' s).filter (fun c => c ≠ [] && c ≠ ['.'])
  match comps.getLast? with
  | some n => n
  | none => []

/-- `pathlib.Path(s).suffix`: extension of the final component, present only
when the final dot is neither the first nor the last character of the name. -/
def pathSuffix (s : List Char) : List Char :=
  let n := pathName s
  let idxs := (List.range n.length).filter (fun i => n.get? i == some '.')
  match idxs.getLast? with
  | some i => if 0 < i ∧ i < n.length - 1 then n.drop i else []
  | none => []

/-- `pathlib.Path(s).stem`: final component with its suffix removed. -/
def pathStem (s : List Char) : List Char :=
  let n := pathName s
  n.take (n.length - (pathSuffix s).length)

/-- Take the maximal leading run of characters satisfying `p`, returning
(run, rest).  Models greedy character classes such as `[^>]*`. -/
def takeRun (p : Char → Bool) : List Char → (List Char × List Char)
  | [] => ([], [])
  | c :: s =>
    if p c then
      let (run, rest) := takeRun p s
      (c :: run, rest)
    else ([], c :: s)

/-! ## Base64 (`base64.b64encode` / `base64.b64decode`) -/

def b64chr (n : Nat) : Char :=
  if n < 26 then Char.ofNat (65 + n)
  else if n < 52 then Char.ofNat (97 + (n - 26))
  else if n < 62 then Char.ofNat (48 + (n - 52))
  else if n = 62 then '+' else '/'

def b64val (c : Char) : Nat :=
  if 'A' ≤ c ∧ c ≤ 'Z' then c.toNat - 65
  else if 'a' ≤ c ∧ c ≤ 'z' then c.toNat - 97 + 26
  else if '0' ≤ c ∧ c ≤ '9' then c.toNat - 48 + 52
  else if c = '+' then 62
  else if c = '/' then 63
  else 0

def b64encodeL : List Nat → List Char
  | a :: b :: c :: rest =>
    let n := (a % 256) * 65536 + (b % 256) * 256 + (c % 256)
    b64chr (n / 262144 % 64) :: b64chr (n / 4096 % 64) :: b64chr (n / 64 % 64) ::
      b64chr (n % 64) :: b64encodeL rest
  | [a, b] =>
    let n := (a % 256) * 65536 + (b % 256) * 256
    [b64chr (n / 262144 % 64), b64chr (n / 4096 % 64), b64chr (n / 64 % 64), '=']
  | [a] =>
    let n := (a % 256) * 65536
    [b64chr (n / 262144 % 64), b64chr (n / 4096 % 64), '=', '=']
  | [] => []

def b64encode (bs : List Nat) : String := ⟨b64encodeL bs⟩

def b64decodeL : List Char → List Nat
  | a :: b :: c :: d :: rest =>
    let n := b64val a * 262144 + b64val b * 4096 + b64val c * 64 + b64val d
    if d = '=' then
      if c = '=' then [n / 65536 % 256]
      else [n / 65536 % 256, n / 256 % 256]
    else (n / 65536 % 256) :: (n / 256 % 256) :: (n % 256) :: b64decodeL rest
  | _ => []

def b64decode (s : String) : List Nat := b64decodeL s.data

/-! ## Insertion-ordered dictionaries (Python `dict`) -/

/-- Python dict assignment: an existing key keeps its position and gets the
new value; a new key is appended. -/
def dictUpsert {α : Type} (m : List (String × α)) (k : String) (v : α) :
    List (String × α) :=
  match m with
  | [] => [(k, v)]
  | (k', v') :: rest => if k' = k then (k', v) :: rest else (k', v') :: dictUpsert rest k v

/-- Python dict lookup. -/
def dictLookup {α : Type} (m : List (String × α)) (k : String) : Option α :=
  match m with
  | [] => none
  | (k', v) :: rest => if k' = k then some v else dictLookup rest k

/-! ## Resource handler (`resource_handler.py`) -/

/-- A file located on disk: its basename and raw bytes.  The stat size always
agrees with the byte content (the filesystem is read-only during conversion). -/
structure RFile where
  name : String
  bytes : List Nat
deriving DecidableEq

/-- External dependencies of `ResourceHandler`: `hashlib.md5(.).hexdigest()`,
`mimetypes.guess_type` (after `_initialize_mime_types` registrations), PIL
image-dimension probing (`_get_image_dimensions`, best-effort), and filesystem
lookup (`_find_resource_path` followed by the `exists()` check, abstracted to
a single reference-to-file map since path probing is I/O). -/
structure ResEnv where
  md5 : List Nat → String
  guessMime : String → Option String
  getDims : List Nat → Option (Nat × Nat)
  find : String → Option RFile

/-- `ResourceHandler._get_mime_type`: `mimetypes.guess_type`, then extension
fallbacks, defaulting to `application/octet-stream`. -/
def rhGetMimeType (env : ResEnv) (filePath : String) : String :=
  match env.guessMime filePath with
  | some m => m
  | none =>
    let extL := pyLower (pathSuffix filePath.data)
    let ext : String := ⟨extL⟩
    if ext ∈ [".png", ".jpg", ".jpeg", ".gif", ".bmp", ".tiff", ".webp"] then
      "image/" ++ ⟨extL.drop 1⟩
    else if ext ∈ [".mp3", ".wav", ".ogg", ".m4a", ".flac"] then
      "audio/" ++ ⟨extL.drop 1⟩
    else if ext ∈ [".mp4", ".avi", ".mov", ".wmv", ".flv", ".webm"] then
      "video/" ++ ⟨extL.drop 1⟩
    else if ext ∈ [".pdf", ".doc", ".docx", ".xls", ".xlsx", ".ppt", ".pptx"] then
      "application/octet-stream"
    else "application/octet-stream"

/-- A resource record (the `resource_info` dictionary).  The Python dict for a
real file also carries a `timestamp` entry (file mtime from `stat`); that
stat metadata is pure I/O bookkeeping untouched by any claim and is omitted. -/
structure ResourceInfo where
  data : String
  mime : String
  hash : String
  filename : String
  size : Nat
  reference : String
  width : Option Nat := none
  height : Option Nat := none
  placeholder : Bool := false
deriving DecidableEq

/-- The base64 literal from `_create_placeholder_resource`. -/
def placeholderB64 : String :=
  "iVBORw0KGgoAAAANSUhEUgAAAAEAAAABCAQAAAC1HAwCAAAAC0lEQVR42mNkYAAAAAYAAjCB0C8AAAAASUVORK5CYII="

/-- The fixed 1x1 transparent PNG placeholder bytes
(`base64.b64decode(...)` in `_create_placeholder_resource`). -/
def placeholderData : List Nat := b64decode placeholderB64

/-- `ResourceHandler._create_placeholder_resource`. -/
def createPlaceholderResource (env : ResEnv) (resourceRef : String) : ResourceInfo :=
  { data := b64encode placeholderData
    mime := "image/png"
    hash := env.md5 placeholderData
    filename := ⟨pathName resourceRef.data⟩
    size := placeholderData.length
    reference := resourceRef
    placeholder := true }

/-- `ResourceHandler._process_resource_file`: oversized files fall back to the
placeholder unconditionally; otherwise the bytes are read in full, hashed,
typed, base64-encoded, and (for images) measured best-effort. -/
def processResourceFile (env : ResEnv) (maxResourceSize : Nat) (file : RFile)
    (resourceRef : String) : ResourceInfo :=
  if file.bytes.length > maxResourceSize then createPlaceholderResource env resourceRef
  else
    let mime := rhGetMimeType env file.name
    let base : ResourceInfo :=
      { data := b64encode file.bytes
        mime := mime
        hash := env.md5 file.bytes
        filename := file.name
        size := file.bytes.length
        reference := resourceRef }
    if pstarts "image/".data mime.data then
      match env.getDims file.bytes with
      | some wh => { base with width := some wh.1, height := some wh.2 }
      | none => base
    else base

/-- Loop body of `ResourceHandler.process_resources`, folding over the
reference set (in its iteration order) and building `resource_map` and
`reference_map`.  The `try/except` around `_process_resource_file` only
guards I/O exceptions, which the abstract filesystem cannot raise. -/
def processResourcesGo (env : ResEnv) (includeUnknown : Bool) (maxSize : Nat) :
    List String → List (String × ResourceInfo) → List (String × String) →
    List (String × ResourceInfo) × List (String × String)
  | [], rmap, refmap => (rmap, refmap)
  | ref :: rest, rmap, refmap =>
    match env.find ref with
    | none =>
      if includeUnknown then
        processResourcesGo env includeUnknown maxSize rest
          (dictUpsert rmap ref (createPlaceholderResource env ref)) refmap
      else processResourcesGo env includeUnknown maxSize rest rmap refmap
    | some file =>
      processResourcesGo env includeUnknown maxSize rest
        (dictUpsert rmap ref (processResourceFile env maxSize file ref))
        (dictUpsert refmap file.name ref)

/-- `ResourceHandler.process_resources`: returns `list(resource_map.values())`. -/
def processResources (env : ResEnv) (includeUnknown : Bool) (maxSize : Nat)
    (resourceRefs : List String) : List ResourceInfo :=
  ((processResourcesGo env includeUnknown maxSize resourceRefs [] []).1).map (·.2)

/-- The record `process_resources` stores for one reference key
(`none` when the reference is dropped). -/
def resolveRef (env : ResEnv) (includeUnknown : Bool) (maxSize : Nat) (ref : String) :
    Option ResourceInfo :=
  match env.find ref with
  | none => if includeUnknown then some (createPlaceholderResource env ref) else none
  | some file => some (processResourceFile env maxSize file ref)

/-! ## Markdown processor (`markdown_processor.py`) -/

/-- `ImageRef` named tuple. -/
structure ImageRef where
  path : String
  altText : String
  markerId : String
  position : Nat
deriving DecidableEq

/-- `processing_options` (with the source's `.get(..., default)` defaults). -/
structure MdOptions where
  removeCodeBlockMarkers : Bool := true
  convertInlineCode : Bool := true
  handleSpecialChars : Bool := true
  removeHeadingMarkers : Bool := true
  handleImageReferences : Bool := true
  processLinks : Bool := true
  escapeHtmlChars : Bool := true
  testMode : Bool := false
  preserveImageMarkdown : Bool := false
  preserveLinkMarkdown : Bool := false
  specialCharReplacements : List (String × String) := []

/-- `MarkdownProcessor.clean_unicode_characters`. -/
def cleanUnicodeCharacters (s : List Char) : List Char :=
  let s := replaceAll s ['\xa0'] [' ']
  let directional : List Char :=
    ['\u200E', '\u200F', '\u202A', '\u202B', '\u202C', '\u202D', '\u202E',
     '\u2066', '\u2067', '\u2068', '\u2069']
  let s := directional.foldl (fun acc c => replaceAll acc [c] []) s
  let spaces : List Char :=
    ['\u2000', '\u2001', '\u2002', '\u2003', '\u2004', '\u2005', '\u2006',
     '\u2007', '\u2008', '\u2009', '\u200A', '\u205F']
  let s := spaces.foldl (fun acc c => replaceAll acc [c] [' ']) s
  let zeroWidth : List Char := ['\u200B', '\u200C', '\u200D', '\uFEFF']
  zeroWidth.foldl (fun acc c => replaceAll acc [c] []) s

/-- Per-line body of `convert_star_lists_to_dashes`. -/
def convertStarLine (line : List Char) : List Char :=
  let esc := "__ESCAPED_ASTERISK__".data
  let line1 := replaceAll line ['\\', '*'] esc
  let line2 :=
    if pstarts ['*', ' '] (pyLstrip line1) then
      match splitFirst ['*'] line1 with
      | some ab => ab.1 ++ '-' :: ab.2
      | none => line1
    else line1
  replaceAll line2 esc ['*']

/-- `MarkdownProcessor.convert_star_lists_to_dashes`. -/
def convertStarListsToDashes (s : List Char) : List Char :=
  List.intercalate ['\n'] ((pySplitLines s).map convertStarLine)

/-- Matcher for the wiki-link pattern `\[\[([^\]]+)\]\]`. -/
def matchWikiLink (s : List Char) : Option (List Char × List Char) :=
  match s with
  | '[' :: '[' :: rest =>
    let rr := takeRun (fun c => c != ']') rest
    match rr.1, rr.2 with
    | [], _ => none
    | run, ']' :: ']' :: rest3 => some (run, rest3)
    | _, _ => none
  | _ => none

/-- The `process_wiki_link` callback.  For a match at position 0, Python
inspects `match.string[0]` — the leading `[` of the match itself, never `!`. -/
def wikiLinkRepl (prev : Option Char) (content : List Char) : List Char :=
  let prevChar := match prev with | some c => c | none => '['
  if prevChar = '!' then '[' :: '[' :: (content ++ [']', ']'])
  else if '|' ∈ content then
    match pySplitChar '|' content with
    | _ :: t :: _ => t
    | _ => content
  else content

/-- Matcher for `==([^=]+)==` (kept text) and its `~~...~~` analogue. -/
def matchDelimPair (d : Char) (s : List Char) : Option (List Char × List Char) :=
  match s with
  | a :: b :: rest =>
    if a = d ∧ b = d then
      let rr := takeRun (fun c => c != d) rest
      match rr.1, rr.2 with
      | [], _ => none
      | run, c1 :: c2 :: rest3 =>
        if c1 = d ∧ c2 = d then some (run, rest3) else none
      | _, _ => none
    else none
  | _ => none

/-- `MarkdownProcessor.process_wiki_links_and_highlights`. -/
def processWikiLinksAndHighlights (s : List Char) : List Char :=
  let s := scanSubCtx (fun prev t =>
    (matchWikiLink t).map (fun p => (wikiLinkRepl prev p.1, p.2))) none s
  let s := scanSub (matchDelimPair '=') s
  scanSub (matchDelimPair '~') s

/-- Lazy tail of the fence-removal pattern: `(.*?)(?:\n)?` followed by the
closing backticks, the greedy optional newline tried first at each lazy
expansion point. -/
def fenceLazyBody : List Char → Option (List Char × List Char)
  | [] => none
  | c :: rest =>
    if pstarts ['\n', '`', '`', '`'] (c :: rest) then some ([], (c :: rest).drop 4)
    else if pstarts ['`', '`', '`'] (c :: rest) then some ([], (c :: rest).drop 3)
    else (fenceLazyBody rest).map (fun p => (c :: p.1, p.2))

/-- The greedy optional first-line group `(?:.*?\n)?`: successive newline
positions are tried earliest-first before the group is dropped. -/
def fenceTryA : List Char → Option (List Char × List Char)
  | [] => none
  | c :: rest =>
    if c = '\n' then
      match fenceLazyBody rest with
      | some p => some p
      | none => fenceTryA rest
    else fenceTryA rest

/-- Matcher for `remove_code_block_markers`' pattern (DOTALL), replacement
`\1`: returns (kept body, rest). -/
def matchCodeFence (s : List Char) : Option (List Char × List Char) :=
  match s with
  | '`' :: '`' :: '`' :: rest =>
    match fenceTryA rest with
    | some p => some p
    | none => fenceLazyBody rest
  | _ => none

/-- `MarkdownProcessor.remove_code_block_markers`. -/
def removeCodeBlockMarkersMd (s : List Char) : List Char := scanSub matchCodeFence s

/-- Matcher for `convert_inline_code`'s pattern `` `([^`]*)` ``, replacement `\1`. -/
def matchInlineCodeStrip (s : List Char) : Option (List Char × List Char) :=
  match s with
  | '`' :: rest =>
    let rr := takeRun (fun c => c != '`') rest
    match rr.2 with
    | '`' :: rest3 => some (rr.1, rest3)
    | _ => none
  | _ => none

/-- `MarkdownProcessor.convert_inline_code`. -/
def convertInlineCodeMd (s : List Char) : List Char := scanSub matchInlineCodeStrip s

/-- Per-line body of `remove_heading_markers` (`^(#{1,6})\s+` removed). -/
def removeHeadingLine (line : List Char) : List Char :=
  let hr := takeRun (fun c => c == '#') line
  if 1 ≤ hr.1.length ∧ hr.1.length ≤ 6 then
    let wr := takeRun isPyWs hr.2
    if wr.1 ≠ [] then wr.2 else line
  else line

/-- `MarkdownProcessor.remove_heading_markers`. -/
def removeHeadingMarkersMd (s : List Char) : List Char :=
  List.intercalate ['\n'] ((pySplitLines s).map removeHeadingLine)

/-- `MarkdownProcessor.handle_special_characters`. -/
def handleSpecialCharacters (opts : MdOptions) (s : List Char) : List Char :=
  let s := opts.specialCharReplacements.foldl
    (fun acc pr => replaceAll acc pr.1.data pr.2.data) s
  if opts.escapeHtmlChars then
    let s := replaceAll s ['&'] "&amp;".data
    let s := replaceAll s ['<'] "&lt;".data
    let s := replaceAll s ['>'] "&gt;".data
    let s := replaceAll s ['"'] "&quot;".data
    if !opts.testMode then replaceAll s ['\''] "&#39;".data else s
  else s

/-- `MarkdownProcessor._normalize_resource_path`; `none` models Python `None`
(external video URLs). -/
def normalizeResourcePath (path : String) : Option String :=
  let p := path.data
  if pstarts "http://".data p || pstarts "https://".data p || pstarts "www.".data p then
    if strContainsL "youtube.com".data p || strContainsL "youtu.be".data p ||
        strContainsL "vimeo.com".data p then none
    else some path
  else
    let p := if '|' ∈ p then (pySplitChar '|' p).headD [] else p
    if pstarts ['/'] p then some ⟨pathName p⟩
    else
      let p := if pstarts ['.', '/'] p then p.drop 2 else p
      some ⟨p⟩

/-- Lazy group 2 of the image/link patterns: `(.*?)\)` without DOTALL. -/
def imgLazyPath : List Char → Option (List Char × List Char)
  | [] => none
  | c :: rest =>
    if c = ')' then some ([], rest)
    else if c = '\n' then none
    else (imgLazyPath rest).map (fun p => (c :: p.1, p.2))

/-- Branch `\[(.*?)\]\((.*?)\)` of the image/link patterns, applied after the
opening bracket: lazy group 1 up to a `](` whose following lazy group 2
reaches a `)`; on inner failure the outer lazy group extends past the `](`
(regex backtracking).  No DOTALL: neither group may span a newline.
Returns (group 1, group 2, rest). -/
def imgBranch1 : List Char → Option (List Char × List Char × List Char)
  | [] => none
  | c :: rest =>
    if pstarts [']', '('] (c :: rest) then
      match imgLazyPath ((c :: rest).drop 2) with
      | some p => some ([], p.1, p.2)
      | none =>
        if c = '\n' then none
        else (imgBranch1 rest).map (fun p => (c :: p.1, p.2.1, p.2.2))
    else if c = '\n' then none
    else (imgBranch1 rest).map (fun p => (c :: p.1, p.2.1, p.2.2))

/-- Wikilink image branch `!\[\[([^\]]+)\]\]` (the character class does admit
newlines).  Returns (alt, path, matched text, rest). -/
def matchImageWiki (s : List Char) : Option (List Char × List Char × List Char × List Char) :=
  match s with
  | '!' :: '[' :: '[' :: rest =>
    let rr := takeRun (fun c => c != ']') rest
    match rr.1, rr.2 with
    | [], _ => none
    | run, ']' :: ']' :: rest3 =>
      some ([], run, '!' :: '[' :: '[' :: (run ++ [']', ']']), rest3)
    | _, _ => none
  | _ => none

/-- Matcher for the combined image pattern
`!\[(.*?)\]\((.*?)\)|!\[\[([^\]]+)\]\]`, first alternative preferred.
Returns (alt, path, matched text, rest). -/
def matchImage (s : List Char) : Option (List Char × List Char × List Char × List Char) :=
  match s with
  | '!' :: '[' :: rest =>
    match imgBranch1 rest with
    | some p =>
      some (p.1, p.2.1, '!' :: '[' :: (p.1 ++ ']' :: '(' :: p.2.1 ++ [')']), p.2.2)
    | none => matchImageWiki s
  | _ => none

/-- The inert marker tag emitted for an extracted image. -/
def markerTag (markerId : String) : List Char :=
  "<en-media-marker id=\"".data ++ markerId.data ++ "\"></en-media-marker>".data

/-- The `process_image` callback body: replacement text plus registry and
reference-set updates. -/
def processImageMatch (opts : MdOptions) (markerId : String) (pos : Nat)
    (alt path matched : List Char) (reg : List ImageRef) (refs : List String) :
    List Char × List ImageRef × List String :=
  match normalizeResourcePath ⟨path⟩ with
  | none =>
    ("<a href=\"".data ++ path ++ "\">".data ++ path ++ "</a>".data, reg, refs)
  | some np =>
    if np ≠ "" then
      let reg' := reg ++ [⟨np, ⟨alt⟩, markerId, pos⟩]
      let refs' := if np ∈ refs then refs else refs ++ [np]
      if opts.preserveImageMarkdown then (matched, reg', refs')
      else (markerTag markerId, reg', refs')
    else
      ("[Image not found: <a href=\"".data ++ path ++ "\">".data ++ path ++ "</a>]".data,
        reg, refs)

/-- Fuel-driven core of the `process_image_references` scan. -/
def imgScanF (idGen : Nat → String) (opts : MdOptions) :
    Nat → List Char → Nat → Nat → List ImageRef → List String →
    List Char × Nat × List ImageRef × List String
  | _, [], _, ctr, reg, refs => ([], ctr, reg, refs)
  | 0, s, _, ctr, reg, refs => (s, ctr, reg, refs)
  | fuel+1, c :: rest, i, ctr, reg, refs =>
    match matchImage (c :: rest) with
    | some q =>
      let markerId := "IMG_" ++ idGen ctr
      let step := processImageMatch opts markerId i q.1 q.2.1 q.2.2.1 reg refs
      if q.2.2.2.length ≤ rest.length then
        let res := imgScanF idGen opts fuel q.2.2.2
          (i + ((c :: rest).length - q.2.2.2.length)) (ctr + 1) step.2.1 step.2.2
        (step.1 ++ res.1, res.2)
      else
        let res := imgScanF idGen opts fuel rest (i + 1) (ctr + 1) step.2.1 step.2.2
        (step.1 ++ res.1, res.2)
    | none =>
      let res := imgScanF idGen opts fuel rest (i + 1) ctr reg refs
      (c :: res.1, res.2)

/-- The `re.sub` scan of `process_image_references`: marker ids come from the
uuid supply `idGen` (one draw per match), match positions are indices into
the original string. -/
def imgScan (idGen : Nat → String) (opts : MdOptions) (s : List Char) (i ctr : Nat)
    (reg : List ImageRef) (refs : List String) :
    List Char × Nat × List ImageRef × List String :=
  imgScanF idGen opts s.length s i ctr reg refs

/-- `MarkdownProcessor.process_image_references`: output text, image registry
(`get_image_registry`) and resource-reference set (`get_resource_references`,
a Python set modelled as an insertion-ordered duplicate-free list). -/
def processImageReferencesMd (idGen : Nat → String) (opts : MdOptions) (s : List Char) :
    List Char × List ImageRef × List String :=
  let r := imgScan idGen opts s 0 0 [] []
  (r.1, r.2.2.1, r.2.2.2)

/-- `MarkdownProcessor.process_links` (`\[(.*?)\]\((.*?)\)`). -/
def processLinksMd (opts : MdOptions) (s : List Char) : List Char :=
  scanSub (fun t =>
    match t with
    | '[' :: rest =>
      (imgBranch1 rest).map (fun p =>
        let matched := '[' :: (p.1 ++ ']' :: '(' :: p.2.1 ++ [')'])
        if opts.preserveLinkMarkdown then (matched, p.2.2)
        else ("[[link:".data ++ p.2.1 ++ '|' :: p.1 ++ "]]".data, p.2.2))
    | _ => none) s

/-- Frontmatter metadata values: plain strings, comma-split lists, or parsed
dates (`datetime.strptime` over the fixed format list is abstracted to the
`tryDate` parameter; on total parse failure the raw string is kept). -/
inductive MetaValue where
  | str (s : String)
  | list (xs : List String)
  | date (d : Nat)
deriving DecidableEq

/-- All the ways `\s*\n` can match a prefix of `s`: the regex engine's
greedy `\s*` consumes some prefix of the maximal whitespace run and then
requires a newline, so there is one alternative per newline inside the run.
Candidates are listed in the engine's backtracking order — latest newline
(greedy choice) first — each as the text remaining after the consumed
`\s*\n`. -/
def wsNlCandidates (s : List Char) : List (List Char) :=
  let ws := (takeRun isPyWs s).1
  let idxs := (List.range ws.length).filter (fun i => ws.get? i == some '\n')
  idxs.reverse.map (fun i => s.drop (i + 1))

/-- The greedy (first) match of `\s*\n`.  Used only for the closing
`\s*\n` of the frontmatter pattern: the pattern ends there, so the engine's
first success is final and no backtracking into it can occur. -/
def wsThenNl (s : List Char) : Option (List Char) := (wsNlCandidates s).head?

/-- Lazy search for the closing `\n---\s*\n` of the frontmatter pattern:
earliest candidate first, extending the lazy group on failure. -/
def fmFindClose : List Char → Option (List Char × List Char)
  | [] => none
  | c :: rest =>
    if pstarts ['\n', '-', '-', '-'] (c :: rest) then
      match wsThenNl ((c :: rest).drop 4) with
      | some after => some ([], after)
      | none => (fmFindClose rest).map (fun p => (c :: p.1, p.2))
    else (fmFindClose rest).map (fun p => (c :: p.1, p.2))

/-- Backtracking over the opening `\s*\n`: try each candidate in the
engine's order, running the rest of the pattern (`(.*?)\n---\s*\n`, i.e.
`fmFindClose`) on each, and keep the first success. -/
def fmTryOpens : List (List Char) → Option (List Char × List Char)
  | [] => none
  | a :: rest =>
    match fmFindClose a with
    | some p => some p
    | none => fmTryOpens rest

/-- Anchored matcher for `^---\s*\n(.*?)\n---\s*\n` (DOTALL):
returns (group 1, text after the whole match). -/
def fmMatch (content : List Char) : Option (List Char × List Char) :=
  match content with
  | '-' :: '-' :: '-' :: rest => fmTryOpens (wsNlCandidates rest)
  | _ => none

/-- One `key: value` line of the frontmatter parse loop. -/
def fmParseLine (tryDate : String → Option Nat) (md : List (String × MetaValue))
    (line : List Char) : List (String × MetaValue) :=
  if ':' ∈ line then
    match splitFirst [':'] line with
    | some kv =>
      let key : String := ⟨pyLower (pyStrip kv.1)⟩
      let value : String := ⟨pyStrip kv.2⟩
      if key ∈ ["created", "updated", "date"] then
        match tryDate value with
        | some d => dictUpsert md key (.date d)
        | none => dictUpsert md key (.str value)
      else if ',' ∈ value.data ∧ key ∈ ["tags", "keywords", "categories"] then
        dictUpsert md key (.list ((pySplitChar ',' value.data).map (fun it => ⟨pyStrip it⟩)))
      else dictUpsert md key (.str value)
    | none => md
  else md

/-- `MarkdownProcessor.extract_frontmatter`. -/
def extractFrontmatter (tryDate : String → Option Nat) (content : String) :
    String × List (String × MetaValue) :=
  match fmMatch content.data with
  | none => (content, [])
  | some p => (⟨p.2⟩, (pySplitLines p.1).foldl (fmParseLine tryDate) [])

/-- `MarkdownProcessor.process_markdown`: the full per-note markdown pass.
Returns (processed text, frontmatter metadata, image registry,
resource-reference set). -/
def processMarkdown (tryDate : String → Option Nat) (idGen : Nat → String)
    (opts : MdOptions) (content : String) :
    String × List (String × MetaValue) × List ImageRef × List String :=
  let bm := extractFrontmatter tryDate content
  let r := cleanUnicodeCharacters bm.1.data
  let r := convertStarListsToDashes r
  let r := processWikiLinksAndHighlights r
  let r := if opts.removeCodeBlockMarkers then removeCodeBlockMarkersMd r else r
  let r := if opts.convertInlineCode then convertInlineCodeMd r else r
  let r := if opts.handleSpecialChars then handleSpecialCharacters opts r else r
  let r := if opts.removeHeadingMarkers then removeHeadingMarkersMd r else r
  let rr :=
    if opts.handleImageReferences then processImageReferencesMd idGen opts r
    else (r, [], [])
  let r := if opts.processLinks then processLinksMd opts rr.1 else rr.1
  (⟨r⟩, bm.2, rr.2.1, rr.2.2)

/-! ## Code-block extraction helpers (`extract_code_blocks.py`) -/

structure CodeBlock where
  language : String
  content : String
deriving DecidableEq

/-- Matcher for the extraction pattern ```` ```(.*?)\n(.*?)``` ```` (DOTALL):
lazy language chunk up to the first newline, then lazy body up to the first
closing triple backtick.  (Backtracking to a later newline cannot succeed
when this fails: the body search region would only shrink.) -/
def matchExtractFence (s : List Char) : Option (List Char × List Char × List Char) :=
  match s with
  | '`' :: '`' :: '`' :: rest =>
    match splitFirst ['\n'] rest with
    | some lr =>
      match splitFirst ['`', '`', '`'] lr.2 with
      | some br => some (lr.1, br.1, br.2)
      | none => none
    | none => none
  | _ => none

/-- Fuel-driven core of the `extract_code_blocks` scan. -/
def extractScanF (idGen : Nat → String) :
    Nat → List Char → Nat → List (String × CodeBlock) →
    List Char × List (String × CodeBlock)
  | _, [], _, blocks => ([], blocks)
  | 0, s, _, blocks => (s, blocks)
  | fuel+1, c :: rest, ctr, blocks =>
    match matchExtractFence (c :: rest) with
    | some q =>
      let blockId := "CODE_BLOCK_" ++ idGen ctr
      let blocks' := dictUpsert blocks blockId ⟨⟨pyStrip q.1⟩, ⟨q.2.1⟩⟩
      if q.2.2.length ≤ rest.length then
        let res := extractScanF idGen fuel q.2.2 (ctr + 1) blocks'
        (blockId.data ++ '\n' :: res.1, res.2)
      else
        let res := extractScanF idGen fuel rest (ctr + 1) blocks'
        (blockId.data ++ '\n' :: res.1, res.2)
    | none =>
      let res := extractScanF idGen fuel rest ctr blocks
      (c :: res.1, res.2)

/-- The `re.sub` scan of `extract_code_blocks`: block ids come from the uuid
supply `idGen`, the marker replacement is `{block_id}\n`. -/
def extractScan (idGen : Nat → String) (s : List Char) (ctr : Nat)
    (blocks : List (String × CodeBlock)) :
    List Char × List (String × CodeBlock) :=
  extractScanF idGen s.length s ctr blocks

/-- `extract_code_blocks`. -/
def extractCodeBlocks (idGen : Nat → String) (content : String) :
    String × List (String × CodeBlock) :=
  let r := extractScan idGen content.data 0 []
  (⟨r.1⟩, r.2)

/-- HTML escaping applied by `restore_code_blocks` (five sequential replaces,
ampersand first). -/
def escapeCodeHtml (s : List Char) : List Char :=
  let s := replaceAll s ['&'] "&amp;".data
  let s := replaceAll s ['<'] "&lt;".data
  let s := replaceAll s ['>'] "&gt;".data
  let s := replaceAll s ['*'] "&#42;".data
  replaceAll s ['_'] "&#95;".data

/-- Wrap the escaped code lines in divs (`restore_code_blocks` loop body):
blank lines become `<div><br/></div>`, a trailing blank line is dropped. -/
def wrapCodeLines (escaped : List Char) : List Char :=
  let lines := pySplitLines escaped
  let n := lines.length
  (lines.enum.map (fun p =>
    if p.1 = n - 1 ∧ pyStrip p.2 = [] ∧ 0 < p.1 then []
    else if pyStrip p.2 = [] then "<div><br/></div>".data
    else "<div>".data ++ p.2 ++ "</div>".data)).flatten

/-- `restore_code_blocks`. -/
def restoreCodeBlocks (content : String) (blocks : List (String × CodeBlock)) : String :=
  ⟨blocks.foldl (fun acc kv =>
    replaceAll acc kv.1.data (wrapCodeLines (escapeCodeHtml kv.2.content.data))) content.data⟩

/-! ## ENML processor (`enml_processor.py`) -/

/-- `html.escape` with `quote=True` (the default), as used for the
"Image not found" fallbacks. -/
def escapeHtmlPy (s : List Char) : List Char :=
  let s := replaceAll s ['&'] "&amp;".data
  let s := replaceAll s ['<'] "&lt;".data
  let s := replaceAll s ['>'] "&gt;".data
  let s := replaceAll s ['"'] "&quot;".data
  replaceAll s ['\''] "&#x27;".data

/-- `ENMLProcessor._get_mime_type`'s lookup table. -/
def enmlMimeTable : List (String × String) :=
  [(".jpg", "image/jpeg"), (".jpeg", "image/jpeg"), (".png", "image/png"),
   (".gif", "image/gif"), (".bmp", "image/bmp"), (".webp", "image/webp"),
   (".svg", "image/svg+xml"), (".pdf", "application/pdf"),
   (".doc", "application/msword"),
   (".docx", "application/vnd.openxmlformats-officedocument.wordprocessingml.document"),
   (".xls", "application/vnd.ms-excel"),
   (".xlsx", "application/vnd.openxmlformats-officedocument.spreadsheetml.sheet"),
   (".ppt", "application/vnd.ms-powerpoint"),
   (".pptx", "application/vnd.openxmlformats-officedocument.presentationml.presentation"),
   (".mp3", "audio/mpeg"), (".mp4", "video/mp4"), (".wav", "audio/wav"),
   (".ogg", "audio/ogg"), (".txt", "text/plain"), (".zip", "application/zip"),
   (".html", "text/html"), (".csv", "text/csv")]

/-- `ENMLProcessor._get_mime_type`. -/
def enmlGetMimeType (name : String) : String :=
  match dictLookup enmlMimeTable ⟨pyLower (pathSuffix name.data)⟩ with
  | some m => m
  | none => "application/octet-stream"

/-- An `ENMLProcessor` resource record.  Unlike the `ResourceHandler` records
it has no size, reference, timestamp or placeholder entry — the code never
sets them. -/
structure EnmlResource where
  data : String
  mime : String
  hash : String
  filename : String
  width : Option Nat := none
  height : Option Nat := none
deriving DecidableEq

/-- Loop of `ENMLProcessor._prepare_resources`: references whose file is not
found are skipped with a printed warning; no placeholder is ever created.
The `try/except` only guards I/O errors, which the abstract filesystem
cannot raise. -/
def prepareResourcesGo (env : ResEnv) :
    List String → List (String × EnmlResource) → List (String × EnmlResource)
  | [], rmap => rmap
  | ref :: rest, rmap =>
    match env.find ref with
    | none => prepareResourcesGo env rest rmap
    | some file =>
      let mime := enmlGetMimeType file.name
      let base : EnmlResource :=
        { data := b64encode file.bytes
          mime := mime
          hash := env.md5 file.bytes
          filename := file.name }
      let info :=
        if pstarts "image/".data mime.data then
          match env.getDims file.bytes with
          | some wh => { base with width := some wh.1, height := some wh.2 }
          | none => base
        else base
      prepareResourcesGo env rest (dictUpsert rmap ref info)

/-- `ENMLProcessor._prepare_resources`.  The processor object holds the whole
configuration — including `resource_options.include_unknown_resources` — but
this method never consults it; the unused `includeUnknownResources` argument
mirrors that configuration input. -/
def prepareResources (env : ResEnv) (_includeUnknownResources : Bool)
    (refs : List String) : List (String × EnmlResource) :=
  prepareResourcesGo env refs []

/-- `ENMLProcessor._get_resource_info_for_path`: exact key lookup, then a
filename-only fallback over the map in insertion order. -/
def getResourceInfoForPath (rmap : List (String × EnmlResource)) (path : String) :
    Option EnmlResource :=
  match dictLookup rmap path with
  | some info => some info
  | none =>
    match rmap.find? (fun kv => pathName kv.1.data == pathName path.data) with
    | some kv => some kv.2
    | none => none

/-- The sized en-media tag built by `_process_image_references`. -/
def enMediaSized (altText : String) (w h : Nat) (hash mime : String) : List Char :=
  "<en-media style=\"--en-naturalWidth:".data ++ (toString w).data ++
  "; --en-naturalHeight:".data ++ (toString h).data ++ ";\" alt=\"".data ++
  altText.data ++ "\" height=\"".data ++ (toString h).data ++ "px\" width=\"".data ++
  (toString w).data ++ "px\" hash=\"".data ++ hash.data ++ "\" type=\"".data ++
  mime.data ++ "\" />".data

/-- The dimension-free en-media tag. -/
def enMediaUnsized (altText : String) (hash mime : String) : List Char :=
  "<en-media alt=\"".data ++ altText.data ++ "\" hash=\"".data ++ hash.data ++
  "\" type=\"".data ++ mime.data ++ "\" />".data

/-- The `replace_marker` callback: first registry entry carrying the marker
id, resource lookup by path, en-media tag or visible error div. -/
def replaceMarkerRepl (registry : List ImageRef) (rmap : List (String × EnmlResource))
    (markerId : String) : List Char :=
  match registry.find? (fun r => r.markerId == markerId) with
  | none => "<div>[Unknown image marker: ".data ++ markerId.data ++ "]</div>".data
  | some imgRef =>
    match getResourceInfoForPath rmap imgRef.path with
    | some info =>
      let altText : String :=
        if pyStrip imgRef.altText.data ≠ [] then ⟨pyStrip imgRef.altText.data⟩
        else ⟨replaceAll (pathStem imgRef.path.data) ['_'] [' ']⟩
      match info.width, info.height with
      | some w, some h => enMediaSized altText w h info.hash info.mime
      | _, _ => enMediaUnsized altText info.hash info.mime
    | none =>
      "<div>[Image not found: ".data ++ escapeHtmlPy imgRef.path.data ++ "]</div>".data

/-- Matcher for `<en-media-marker id="([^"]+)"></en-media-marker>`. -/
def matchMarkerTag (s : List Char) : Option (String × List Char) :=
  let pre := "<en-media-marker id=\"".data
  let post := "\"></en-media-marker>".data
  if pstarts pre s then
    let rr := takeRun (fun c => c != '"') (s.drop pre.length)
    match rr.1 with
    | [] => none
    | run =>
      if pstarts post rr.2 then some (⟨run⟩, rr.2.drop post.length) else none
  else none

/-- Lazy `(.*?)` up to a given delimiter, `.` not matching newlines. -/
def lazyToCharNoNl (d : Char) : List Char → Option (List Char × List Char)
  | [] => none
  | c :: rest =>
    if c = d then some ([], rest)
    else if c = '\n' then none
    else (lazyToCharNoNl d rest).map (fun p => (c :: p.1, p.2))

/-- Tail `(.*?)/?>` of the img-tag pattern: at each lazy expansion point the
greedy optional `/` is tried first. -/
def imgAttrsLazy : List Char → Option (List Char × List Char)
  | [] => none
  | c :: rest =>
    if c = '/' ∧ pstarts ['>'] rest then some ([], rest.drop 1)
    else if c = '>' then some ([], rest)
    else if c = '\n' then none
    else (imgAttrsLazy rest).map (fun p => (c :: p.1, p.2))

/-- Combined lazy groups `(.*?)["\'](.*?)/?>` of the img-tag pattern: when the
attrs group fails for a closing-quote choice, the src group extends past it
(regex backtracking).  Returns (src, attrs, rest). -/
def imgSrcAttrs : List Char → Option (List Char × List Char × List Char)
  | [] => none
  | c :: rest =>
    if c = '"' ∨ c = '\'' then
      match imgAttrsLazy rest with
      | some p => some ([], p.1, p.2)
      | none => (imgSrcAttrs rest).map (fun p => (c :: p.1, p.2.1, p.2.2))
    else if c = '\n' then none
    else (imgSrcAttrs rest).map (fun p => (c :: p.1, p.2.1, p.2.2))

/-- Matcher for `<img\s+src=["\'](.*?)["\'](.*?)/?>`:
returns (src, attrs, matched text, rest). -/
def matchImgTag (s : List Char) : Option (List Char × List Char × List Char × List Char) :=
  if pstarts "<img".data s then
    let wr := takeRun isPyWs (s.drop 4)
    if wr.1 = [] then none
    else if pstarts "src=".data wr.2 then
      match wr.2.drop 4 with
      | q :: rest =>
        if q = '"' ∨ q = '\'' then
          match imgSrcAttrs rest with
          | some p =>
            let matchedLen := s.length - p.2.2.length
            some (p.1, p.2.1, s.take matchedLen, p.2.2)
          | none => none
        else none
      | [] => none
    else none
  else none

/-- `re.search(r'alt=["\"](.*?)["\"]', attrs)`: note the character class
`["\"]` contains only the double quote, so single-quoted alt text never
matches. -/
def searchAltDq : List Char → Option (List Char)
  | [] => none
  | c :: rest =>
    if pstarts "alt=\"".data (c :: rest) then
      match lazyToCharNoNl '"' ((c :: rest).drop 5) with
      | some p => some p.1
      | none => searchAltDq rest
    else searchAltDq rest

/-- The `replace_img` callback. -/
def replaceImgRepl (rmap : List (String × EnmlResource))
    (src attrs matched : List Char) : List Char :=
  if pstarts "http://".data src ∨ pstarts "https://".data src then matched
  else
    match getResourceInfoForPath rmap ⟨src⟩ with
    | some info =>
      match info.width, info.height with
      | some w, some h =>
        let alt : String :=
          match searchAltDq attrs with
          | some a => ⟨a⟩
          | none => ⟨replaceAll (pathStem src) ['_'] [' ']⟩
        enMediaSized alt w h info.hash info.mime
      | _, _ =>
        let alt : String :=
          match searchAltDq attrs with
          | some a =>
            if pyStrip a ≠ [] then ⟨pyStrip a⟩
            else ⟨replaceAll (pathStem src) ['_'] [' ']⟩
          | none => ⟨replaceAll (pathStem src) ['_'] [' ']⟩
        enMediaUnsized alt info.hash info.mime
    | none => "<div>[Image not found: ".data ++ escapeHtmlPy src ++ "]</div>".data

/-- `ENMLProcessor._process_image_references`: marker pass, then img-tag pass. -/
def processImageReferencesEnml (registry : List ImageRef)
    (rmap : List (String × EnmlResource)) (s : List Char) : List Char :=
  let s := scanSub (fun t => (matchMarkerTag t).map
    (fun p => (replaceMarkerRepl registry rmap p.1, p.2))) s
  scanSub (fun t => (matchImgTag t).map
    (fun p => (replaceImgRepl rmap p.1 p.2.1 p.2.2.1, p.2.2.2))) s

/-- `[^>]*>` after a matched tag head: consume through the first `>`. -/
def openTagEnd (s : List Char) : Option (List Char × List Char) :=
  let rr := takeRun (fun c => c != '>') s
  match rr.2 with
  | '>' :: rest => some ([], rest)
  | _ => none

/-- `<!DOCTYPE[^>]*>`, removed. -/
def matchDoctype (s : List Char) : Option (List Char × List Char) :=
  if pstarts "<!DOCTYPE".data s then openTagEnd (s.drop 9) else none

/-- `<html[^>]*>|</html>|<body[^>]*>|</body>`, removed (alternatives tried in
source order). -/
def matchHtmlBody (s : List Char) : Option (List Char × List Char) :=
  if pstarts "<html".data s then openTagEnd (s.drop 5)
  else if pstarts "</html>".data s then some ([], s.drop 7)
  else if pstarts "<body".data s then openTagEnd (s.drop 5)
  else if pstarts "</body>".data s then some ([], s.drop 7)
  else none

/-- `<{e}[^>]*>.*?</{e}>`, removed with its content (the lazy body reaches
the first literal close tag). -/
def matchElemBlock (e : List Char) (s : List Char) : Option (List Char × List Char) :=
  if pstarts ('<' :: e) s then
    match openTagEnd (s.drop (e.length + 1)) with
    | some p =>
      match splitFirst ('<' :: '/' :: e ++ ['>']) p.2 with
      | some q => some ([], q.2)
      | none => none
    | none => none
  else none

/-- `<{e}[^>]*/?>`, removed (equivalent to consuming through the first `>`). -/
def matchElemOpen (e : List Char) (s : List Char) : Option (List Char × List Char) :=
  if pstarts ('<' :: e) s then openTagEnd (s.drop (e.length + 1)) else none

/-- The prohibited-element loop: for each element, one block pass then one
open-tag pass. -/
def cleanElements (elems : List (List Char)) (s : List Char) : List Char :=
  elems.foldl (fun acc e => scanSub (matchElemOpen e) (scanSub (matchElemBlock e) acc)) s

/-- `<(img|br|hr)([^>]*)(?<!\/)>` rewritten to `<\1\2/>`. -/
def matchUnclosedVoid (s : List Char) : Option (List Char × List Char) :=
  match s with
  | '<' :: rest =>
    let tag :=
      if pstarts "img".data rest then some "img".data
      else if pstarts "br".data rest then some "br".data
      else if pstarts "hr".data rest then some "hr".data
      else none
    match tag with
    | none => none
    | some t =>
      let rr := takeRun (fun c => c != '>') (rest.drop t.length)
      match rr.2 with
      | '>' :: rest2 =>
        match rr.1.getLast? with
        | some '/' => none
        | _ => some ('<' :: t ++ rr.1 ++ ['/', '>'], rest2)
      | _ => none
  | _ => none

def isNameChar (c : Char) : Bool :=
  ('a' ≤ c && c ≤ 'z') || ('A' ≤ c && c ≤ 'Z') || ('0' ≤ c && c ≤ '9') ||
    c == '_' || c == '-'

/-- Lazy `(.*?)["\']`: up to the first quote of either kind, no newlines. -/
def lazyToQuoteNoNl : List Char → Option (List Char × List Char)
  | [] => none
  | c :: rest =>
    if c = '"' ∨ c = '\'' then some ([], rest)
    else if c = '\n' then none
    else (lazyToQuoteNoNl rest).map (fun p => (c :: p.1, p.2))

/-- `([a-zA-Z0-9_-]+)=["\'](.*?)["\']` with the `fix_quotes` callback: the
value is re-emitted in double quotes with embedded quotes entity-escaped
(the lazy group can never actually contain one). -/
def matchAttrQuote (s : List Char) : Option (List Char × List Char) :=
  let nr := takeRun isNameChar s
  if nr.1 = [] then none
  else
    match nr.2 with
    | '=' :: q :: rest =>
      if q = '"' ∨ q = '\'' then
        match lazyToQuoteNoNl rest with
        | some p =>
          let v := replaceAll (replaceAll p.1 ['"'] "&quot;".data) ['\''] "&apos;".data
          some (nr.1 ++ '=' :: '"' :: v ++ ['"'], p.2)
        | none => none
      else none
    | _ => none

/-- ` {attr}=["\'"][^\'"]*["\']`, removed. -/
def matchProhibAttr (attr : List Char) (s : List Char) : Option (List Char × List Char) :=
  match s with
  | ' ' :: rest =>
    if pstarts (attr ++ ['=']) rest then
      match rest.drop (attr.length + 1) with
      | q :: rest2 =>
        if q = '"' ∨ q = '\'' then
          let rr := takeRun (fun c => c != '"' && c != '\'') rest2
          match rr.2 with
          | q2 :: rest3 =>
            if q2 = '"' ∨ q2 = '\'' then some ([], rest3) else none
          | [] => none
        else none
      | [] => none
    else none
  | _ => none

/-- The prohibited-attribute loop. -/
def cleanAttributes (attrs : List (List Char)) (s : List Char) : List Char :=
  attrs.foldl (fun acc a => scanSub (matchProhibAttr a) acc) s

def isLowerDigit (c : Char) : Bool := ('a' ≤ c && c ≤ 'z') || ('0' ≤ c && c ≤ '9')

/-- `<(?!/)([a-z0-9]+)(?:\s+[^>]*)?(?<![/\"])>` rewritten to `<\1>`. -/
def matchMalformedTag (s : List Char) : Option (List Char × List Char) :=
  match s with
  | '<' :: rest =>
    let nr := takeRun isLowerDigit rest
    if nr.1 = [] then none
    else
      match nr.2 with
      | '>' :: rest2 => some ('<' :: nr.1 ++ ['>'], rest2)
      | c :: _ =>
        if isPyWs c then
          let rr := takeRun (fun x => x != '>') nr.2
          match rr.2 with
          | '>' :: rest2 =>
            match rr.1.getLast? with
            | some '/' => none
            | some '"' => none
            | _ => some ('<' :: nr.1 ++ ['>'], rest2)
          | _ => none
        else none
      | [] => none
  | _ => none

/-- `ENMLProcessor.PROHIBITED_ELEMENTS` in source-listing order (the Python
set's iteration order is unspecified; theorems are stated over arbitrary
orders or instantiated with this one). -/
def srcProhibitedElements : List (List Char) :=
  ["applet".data, "base".data, "basefont".data, "bgsound".data, "blink".data,
   "body".data, "button".data, "dir".data, "embed".data, "fieldset".data,
   "form".data, "frame".data, "frameset".data, "head".data, "html".data,
   "iframe".data, "ilayer".data, "input".data, "isindex".data, "label".data,
   "layer".data, "legend".data, "link".data, "marquee".data, "menu".data,
   "meta".data, "noframes".data, "noscript".data, "object".data, "optgroup".data,
   "option".data, "param".data, "plaintext".data, "script".data, "select".data,
   "style".data, "textarea".data, "xml".data]

/-- `ENMLProcessor.PROHIBITED_ATTRIBUTES` in source-listing order (base set,
then the `on*` event handlers; `onclick`/`ondblclick` deduplicated by the
set union). -/
def srcProhibitedAttributes : List (List Char) :=
  ["id".data, "class".data, "onclick".data, "ondblclick".data, "accesskey".data,
   "data".data, "dynsrc".data, "tabindex".data,
   "onabort".data, "onblur".data, "onchange".data, "onerror".data,
   "onfocus".data, "onkeydown".data, "onkeypress".data, "onkeyup".data,
   "onload".data, "onmousedown".data, "onmousemove".data, "onmouseout".data,
   "onmouseover".data, "onmouseup".data, "onreset".data, "onresize".data,
   "onscroll".data, "onselect".data, "onsubmit".data, "onunload".data]

/-- `ENMLProcessor._clean_html`. -/
def cleanHtml (elems attrs : List (List Char)) (s : List Char) : List Char :=
  let s := scanSub matchDoctype s
  let s := scanSub matchHtmlBody s
  let s := cleanElements elems s
  let s := scanSub matchUnclosedVoid s
  let s := scanSub matchAttrQuote s
  let s := cleanAttributes attrs s
  let s := scanSub matchMalformedTag s
  replaceAll s "&nbsp;".data "&#160;".data

/-- `<p>(.*?)</p>` rewritten to `<div>\1</div>` (DOTALL). -/
def matchPDiv (s : List Char) : Option (List Char × List Char) :=
  if pstarts "<p>".data s then
    match splitFirst "</p>".data (s.drop 3) with
    | some p => some ("<div>".data ++ p.1 ++ "</div>".data, p.2)
    | none => none
  else none

/-- `<div>\s*(<en-media[^>]+/>)\s*</div>` rewritten to `\1`. -/
def matchDivEnMedia (s : List Char) : Option (List Char × List Char) :=
  if pstarts "<div>".data s then
    let wr := takeRun isPyWs (s.drop 5)
    if pstarts "<en-media".data wr.2 then
      let body := takeRun (fun c => c != '>') (wr.2.drop 9)
      match body.2 with
      | '>' :: rest2 =>
        if body.1.getLast? = some '/' ∧ 2 ≤ body.1.length then
          let wr2 := takeRun isPyWs rest2
          if pstarts "</div>".data wr2.2 then
            some ("<en-media".data ++ body.1 ++ ['>'], wr2.2.drop 6)
          else none
        else none
      | _ => none
    else none
  else none

/-- The `_split_multiline_div` callback. -/
def splitMultilineDivRepl (inner matched : List Char) : List Char :=
  if strContainsL "<!--PRESERVE-".data inner then matched
  else if '\n' ∉ inner then matched
  else
    ((pySplitLines inner).map (fun line =>
      let stripped := pyStrip line
      if stripped = [] then "<div><br/></div>".data
      else if pstarts "<en-media".data stripped then stripped
      else "<div>".data ++ line ++ "</div>".data)).flatten

/-- `<div>(.*?)</div>` (DOTALL) with `_split_multiline_div`. -/
def matchDivSplit (s : List Char) : Option (List Char × List Char) :=
  if pstarts "<div>".data s then
    match splitFirst "</div>".data (s.drop 5) with
    | some p =>
      some (splitMultilineDivRepl p.1 ("<div>".data ++ p.1 ++ "</div>".data), p.2)
    | none => none
  else none

/-- Character class `[^\s<>"\']` of the URL pattern. -/
def urlChar (c : Char) : Bool :=
  !(isPyWs c) && c != '<' && c != '>' && c != '"' && c != '\''

/-- `(?<!["\'=])(https?://[^\s<>"\']+)` with the `url_to_link` callback (whose
own preceding-character check duplicates the lookbehind and is unreachable,
modelled faithfully all the same). -/
def matchUrl (prev : Option Char) (s : List Char) : Option (List Char × List Char) :=
  let prevOk :=
    match prev with
    | some c => c != '"' && c != '\'' && c != '='
    | none => true
  if !prevOk then none
  else
    let head :=
      if pstarts "https://".data s then some 8
      else if pstarts "http://".data s then some 7
      else none
    match head with
    | none => none
    | some n =>
      let rr := takeRun urlChar (s.drop n)
      if rr.1 = [] then none
      else
        let url := s.take n ++ rr.1
        let repl :=
          match prev with
          | some c =>
            if c = '"' ∨ c = '\'' then url
            else "<a href=\"".data ++ url ++ "\" rev=\"en_rl_none\">".data ++ url ++ "</a>".data
          | none =>
            "<a href=\"".data ++ url ++ "\" rev=\"en_rl_none\">".data ++ url ++ "</a>".data
        some (repl, rr.2)

/-- `</div>(?!\s*<)` rewritten to `</div><div><br/></div>`. -/
def matchDivBr (s : List Char) : Option (List Char × List Char) :=
  if pstarts "</div>".data s then
    let rest := s.drop 6
    let wr := takeRun isPyWs rest
    match wr.2 with
    | '<' :: _ => none
    | _ => some ("</div><div><br/></div>".data, rest)
  else none

def listEndsWith (suf s : List Char) : Bool := pstarts suf.reverse s.reverse

/-- `<div>-{3,}</div>` at the head (greedy dash run then the literal close). -/
def matchDashDiv (s : List Char) : Option (List Char) :=
  if pstarts "<div>".data s then
    let dr := takeRun (fun c => c == '-') (s.drop 5)
    if 3 ≤ dr.1.length ∧ pstarts "</div>".data dr.2 then some (dr.2.drop 6)
    else none
  else none

/-- Lazy `.*?` search for the second dash div. -/
def findDashDiv : List Char → Option (List Char)
  | [] => none
  | c :: rest =>
    match matchDashDiv (c :: rest) with
    | some after => some after
    | none => findDashDiv rest

/-- `<div>-{3,}</div>.*?<div>-{3,}</div>` rewritten to `<div><br/></div>`
(DOTALL). -/
def matchMetaBlock (s : List Char) : Option (List Char × List Char) :=
  match matchDashDiv s with
  | some after1 =>
    match findDashDiv after1 with
    | some after2 => some ("<div><br/></div>".data, after2)
    | none => none
  | none => none

/-- `<div>\s*</div>`, removed. -/
def matchEmptyDiv (s : List Char) : Option (List Char × List Char) :=
  if pstarts "<div>".data s then
    let wr := takeRun isPyWs (s.drop 5)
    if pstarts "</div>".data wr.2 then some ([], wr.2.drop 6) else none
  else none

/-- `<([a-z0-9]+) lang=` rewritten to `<\1 xml:lang=`. -/
def matchLangAttr (s : List Char) : Option (List Char × List Char) :=
  match s with
  | '<' :: rest =>
    let nr := takeRun isLowerDigit rest
    if nr.1 ≠ [] ∧ pstarts " lang=".data nr.2 then
      some ('<' :: nr.1 ++ " xml:lang=".data, nr.2.drop 6)
    else none
  | _ => none

/-- `>\s+<` rewritten to `><`. -/
def matchInterTagWs (s : List Char) : Option (List Char × List Char) :=
  match s with
  | '>' :: rest =>
    let wr := takeRun isPyWs rest
    if wr.1 ≠ [] then
      match wr.2 with
      | '<' :: rest2 => some ("><".data, rest2)
      | _ => none
    else none
  | _ => none

/-- `ENMLProcessor._convert_to_evernote_format`.  The "add an empty block at
the beginning" step of the source sits inside a comment line and does not
execute; the "add at the end" step does. -/
def convertToEvernoteFormat (s : List Char) : List Char :=
  let s := replaceAll s "<ul>".data "<!--PRESERVE-UL-->".data
  let s := replaceAll s "</ul>".data "<!--PRESERVE-UL-END-->".data
  let s := replaceAll s "<ol>".data "<!--PRESERVE-OL-->".data
  let s := replaceAll s "</ol>".data "<!--PRESERVE-OL-END-->".data
  let s := replaceAll s "<li>".data "<!--PRESERVE-LI-->".data
  let s := replaceAll s "</li>".data "<!--PRESERVE-LI-END-->".data
  let s := scanSub matchPDiv s
  let s := scanSub matchDivEnMedia s
  let s := scanSub matchDivSplit s
  let s := replaceAll s "<!--PRESERVE-UL-->".data "<ul>".data
  let s := replaceAll s "<!--PRESERVE-UL-END-->".data "</ul>".data
  let s := replaceAll s "<!--PRESERVE-OL-->".data "<ol>".data
  let s := replaceAll s "<!--PRESERVE-OL-END-->".data "</ol>".data
  let s := replaceAll s "<!--PRESERVE-LI-->".data "<li>".data
  let s := replaceAll s "<!--PRESERVE-LI-END-->".data "</li>".data
  let s := scanSubCtx matchUrl none s
  let s := scanSub matchDivBr s
  let s := if listEndsWith "<div><br/></div>".data s then s
    else s ++ "<div><br/></div>".data
  let s := scanSub matchMetaBlock s
  let s := scanSub matchEmptyDiv s
  let s := scanSub matchLangAttr s
  scanSub matchInterTagWs s

/-- `ENMLProcessor.process_html_to_enml`: resource preparation, marker and
img resolution, cleaning, Evernote formatting, en-note + CDATA wrapping.
Returns (enml content, `list(resource_map.values())`). -/
def processHtmlToEnml (env : ResEnv) (includeUnknownResources : Bool)
    (elems attrs : List (List Char)) (registry : List ImageRef)
    (resourceRefs : List String) (htmlContent : String) :
    String × List EnmlResource :=
  let rmap := prepareResources env includeUnknownResources resourceRefs
  let s := processImageReferencesEnml registry rmap htmlContent.data
  let s := cleanHtml elems attrs s
  let s := convertToEvernoteFormat s
  let inner :=
    "<?xml version=\"1.0\" encoding=\"UTF-8\" standalone=\"no\"?>\n<!DOCTYPE en-note SYSTEM \"http://xml.evernote.com/pub/enml2.dtd\"><en-note>".data
      ++ s ++ "</en-note>".data
  (⟨"<![CDATA[".data ++ inner ++ "]]>".data⟩, rmap.map (·.2))

/-! ## Concrete instances used by witnesses and counterexamples -/

/-- An environment whose filesystem is empty (every lookup misses). -/
def envEmpty : ResEnv := ⟨fun _ => "fixedhash", fun _ => none, fun _ => none, fun _ => none⟩

/-- An environment with a single three-byte file reachable as `big`. -/
def envBig : ResEnv :=
  ⟨fun bs => if bs = [0, 1, 2] then "hash-of-012" else "hash-other",
   fun _ => none, fun _ => none,
   fun r => if r = "big" then some ⟨"big.bin", [0, 1, 2]⟩ else none⟩

/-- A deterministic, injective stand-in for the uuid supply. -/
def idGenA : Nat → String := fun n => ⟨List.replicate n 'a'⟩

/-- The ENML sanitisation pass (`process_html_to_enml`) on a note with no
image registry and no resource references, over the source's prohibited
element and attribute orders. -/
def enmlSanitize (h : String) : String :=
  (processHtmlToEnml envEmpty false srcProhibitedElements srcProhibitedAttributes
    [] [] h).1

/-! ## Helper lemmas -/

theorem scanSubF_fuel (m : List Char → Option (List Char × List Char)) :
    ∀ (fuel : Nat) (s : List Char), s.length ≤ fuel →
      scanSubF m fuel s = scanSubF m s.length s := by
  intro fuel
  induction fuel using Nat.strong_induction_on with
  | _ fuel ih =>
    match fuel with
    | 0 =>
      intro s hs
      have hnil : s = [] := List.length_eq_zero.mp (Nat.le_zero.mp hs)
      subst hnil
      rfl
    | f + 1 =>
      intro s hs
      cases s with
      | nil => rfl
      | cons c rest =>
        simp only [List.length_cons] at hs ⊢
        rw [scanSubF, scanSubF]
        cases hm : m (c :: rest) with
        | none =>
          dsimp only
          rw [ih f (Nat.lt_succ_self f) rest (Nat.le_of_succ_le_succ hs)]
        | some p =>
          obtain ⟨r, t⟩ := p
          dsimp only
          by_cases hl : t.length ≤ rest.length
          · rw [if_pos hl, if_pos hl,
              ih f (Nat.lt_succ_self f) t (Nat.le_trans hl (Nat.le_of_succ_le_succ hs)),
              ih rest.length (Nat.lt_of_le_of_lt (Nat.le_of_succ_le_succ hs)
                (Nat.lt_succ_self f)) t hl]
          · rw [if_neg hl, if_neg hl,
              ih f (Nat.lt_succ_self f) rest (Nat.le_of_succ_le_succ hs),
              ih rest.length (Nat.lt_of_le_of_lt (Nat.le_of_succ_le_succ hs)
                (Nat.lt_succ_self f)) rest (Nat.le_refl _)]

theorem scanSub_nil (m : List Char → Option (List Char × List Char)) :
    scanSub m [] = [] := rfl

theorem scanSub_cons_match {m : List Char → Option (List Char × List Char)}
    {c : Char} {s r t : List Char}
    (hm : m (c :: s) = some (r, t)) (hl : t.length ≤ s.length) :
    scanSub m (c :: s) = r ++ scanSub m t := by
  show scanSubF m (c :: s).length (c :: s) = r ++ scanSubF m t.length t
  simp only [List.length_cons]
  rw [scanSubF, hm]
  dsimp only
  rw [if_pos hl, scanSubF_fuel m s.length t hl]

theorem scanSub_cons_nomatch {m : List Char → Option (List Char × List Char)}
    {c : Char} {s : List Char} (hm : m (c :: s) = none) :
    scanSub m (c :: s) = c :: scanSub m s := by
  show scanSubF m (c :: s).length (c :: s) = c :: scanSubF m s.length s
  simp only [List.length_cons]
  rw [scanSubF, hm]

theorem dictUpsert_fresh {α : Type} (m : List (String × α)) (k : String) (v : α)
    (h : k ∉ m.map Prod.fst) : dictUpsert m k v = m ++ [(k, v)] := by
  induction m with
  | nil => rfl
  | cons p rest ih =>
    simp only [List.map_cons, List.mem_cons] at h
    push_neg at h
    simp [dictUpsert, Ne.symm h.1, ih h.2]

theorem dictUpsert_values_subset {α : Type} {m : List (String × α)} {k : String}
    {v x : α} (hx : x ∈ (dictUpsert m k v).map Prod.snd) :
    x ∈ m.map Prod.snd ∨ x = v := by
  induction m with
  | nil =>
    simp only [dictUpsert, List.map_cons, List.map_nil, List.mem_singleton] at hx
    exact Or.inr hx
  | cons p rest ih =>
    obtain ⟨k', v'⟩ := p
    by_cases hk : k' = k
    · rw [show dictUpsert ((k', v') :: rest) k v = (k', v) :: rest by
        simp [dictUpsert, hk]] at hx
      rw [List.map_cons, List.mem_cons] at hx
      rcases hx with h | h
      · exact Or.inr h
      · exact Or.inl (by simp only [List.map_cons, List.mem_cons]; exact Or.inr h)
    · rw [show dictUpsert ((k', v') :: rest) k v = (k', v') :: dictUpsert rest k v by
        simp [dictUpsert, hk]] at hx
      rw [List.map_cons, List.mem_cons] at hx
      rcases hx with h | h
      · exact Or.inl (by simp only [List.map_cons, List.mem_cons]; exact Or.inl h)
      · rcases ih h with h' | h'
        · exact Or.inl (by simp only [List.map_cons, List.mem_cons]; exact Or.inr h')
        · exact Or.inr h'

/-! ## C1-C3: resource handler theorems -/

theorem resolveRef_reference (env : ResEnv) (b : Bool) (n : Nat) (r : String)
    (v : ResourceInfo) (h : resolveRef env b n r = some v) : v.reference = r := by
  unfold resolveRef at h
  cases hf : env.find r with
  | none =>
    rw [hf] at h
    cases b with
    | false => simp at h
    | true =>
      simp at h
      rw [← h]
      rfl
  | some file =>
    rw [hf] at h
    simp at h
    rw [← h]
    unfold processResourceFile
    split
    · rfl
    · dsimp only
      split
      · cases henv : env.getDims file.bytes <;> simp [henv]
      · rfl

theorem processResourcesGo_fst (env : ResEnv) (b : Bool) (n : Nat)
    (refs : List String) :
    ∀ (rmap : List (String × ResourceInfo)) (refmap : List (String × String)),
    refs.Nodup → (∀ r ∈ refs, r ∉ rmap.map Prod.fst) →
    (processResourcesGo env b n refs rmap refmap).1
      = rmap ++ refs.filterMap (fun r => (resolveRef env b n r).map (fun v => (r, v))) := by
  induction refs with
  | nil => intro rmap refmap _ _; simp [processResourcesGo]
  | cons ref rest ih =>
    intro rmap refmap hnd hfresh
    have hndr : rest.Nodup := (List.nodup_cons.mp hnd).2
    have href : ref ∉ rest := (List.nodup_cons.mp hnd).1
    have hfref : ref ∉ rmap.map Prod.fst := hfresh ref (by simp)
    have hfrest : ∀ r ∈ rest, r ∉ rmap.map Prod.fst := fun r hr => hfresh r (by simp [hr])
    have hfreshNew : ∀ (v : ResourceInfo), ∀ r ∈ rest,
        r ∉ (rmap ++ [(ref, v)]).map Prod.fst := by
      intro v r hr
      simp only [List.map_append, List.mem_append]
      push_neg
      refine ⟨hfrest r hr, ?_⟩
      simp only [List.map_cons, List.map_nil, List.mem_singleton]
      exact fun he => href (he ▸ hr)
    cases hfind : env.find ref with
    | none =>
      cases b with
      | false =>
        have hres : resolveRef env false n ref = none := by
          unfold resolveRef; rw [hfind]; rfl
        rw [processResourcesGo, hfind]
        dsimp only
        simp only [Bool.false_eq_true, if_false]
        rw [ih rmap refmap hndr hfrest, List.filterMap_cons, hres]
        rfl
      | true =>
        have hres : resolveRef env true n ref
            = some (createPlaceholderResource env ref) := by
          unfold resolveRef; rw [hfind]; rfl
        rw [processResourcesGo, hfind]
        dsimp only
        simp only [if_true]
        rw [dictUpsert_fresh _ _ _ hfref,
          ih _ refmap hndr (hfreshNew _),
          List.filterMap_cons, hres]
        simp [List.append_assoc]
    | some file =>
      have hres : resolveRef env b n ref
          = some (processResourceFile env n file ref) := by
        unfold resolveRef; rw [hfind]
      rw [processResourcesGo, hfind]
      dsimp only
      rw [dictUpsert_fresh _ _ _ hfref,
        ih _ _ hndr (hfreshNew _),
        List.filterMap_cons, hres]
      simp [List.append_assoc]

theorem processResources_eq_filterMap (env : ResEnv) (b : Bool) (n : Nat)
    (refs : List String) (hnd : refs.Nodup) :
    processResources env b n refs = refs.filterMap (resolveRef env b n) := by
  unfold processResources
  rw [processResourcesGo_fst env b n refs [] [] hnd (by simp)]
  simp only [List.nil_append]
  induction refs with
  | nil => simp
  | cons ref rest ih =>
    rw [List.filterMap_cons, List.filterMap_cons]
    cases h : resolveRef env b n ref with
    | none => simpa using ih (List.nodup_cons.mp hnd).2
    | some v =>
      have hred : (Option.map (fun v => (ref, v)) (some v)) = some (ref, v) := rfl
      simp only [hred]
      rw [List.map_cons, ih (List.nodup_cons.mp hnd).2]

theorem filterMap_resolve_filter (env : ResEnv) (b : Bool) (n : Nat)
    (refs : List String) (ref : String) (hnd : refs.Nodup) (hmem : ref ∈ refs) :
    (refs.filterMap (resolveRef env b n)).filter (fun v => v.reference == ref)
      = (resolveRef env b n ref).toList := by
  have hnone : ∀ (l : List String), ref ∉ l →
      (l.filterMap (resolveRef env b n)).filter (fun v => v.reference == ref) = [] := by
    intro l
    induction l with
    | nil => intro _; rfl
    | cons r rest ih =>
      intro hnm
      simp only [List.mem_cons] at hnm
      push_neg at hnm
      rw [List.filterMap_cons]
      cases h : resolveRef env b n r with
      | none => exact ih hnm.2
      | some v =>
        rw [List.filter_cons]
        have : (v.reference == ref) = false := by
          rw [resolveRef_reference env b n r v h]
          simp [Ne.symm hnm.1]
        rw [this]
        simp only [Bool.false_eq_true, if_false]
        exact ih hnm.2
  induction refs with
  | nil => cases hmem
  | cons r rest ih =>
    rw [List.filterMap_cons]
    by_cases he : r = ref
    · subst he
      have hnr : r ∉ rest := (List.nodup_cons.mp hnd).1
      cases h : resolveRef env b n r with
      | none => simpa using hnone rest hnr
      | some v =>
        rw [List.filter_cons]
        have : (v.reference == r) = true := by
          rw [resolveRef_reference env b n r v h]
          simp
        rw [this]
        simp only [if_true]
        rw [hnone rest hnr]
        rfl
    · have hmem' : ref ∈ rest := by
        rcases List.mem_cons.mp hmem with h | h
        · exact absurd h.symm he
        · exact h
      cases h : resolveRef env b n r with
      | none => exact ih (List.nodup_cons.mp hnd).2 hmem'
      | some v =>
        rw [List.filter_cons]
        have : (v.reference == ref) = false := by
          rw [resolveRef_reference env b n r v h]
          simp [he]
        rw [this]
        simp only [Bool.false_eq_true, if_false]
        exact ih (List.nodup_cons.mp hnd).2 hmem'

/-- C1: for a reference key with no backing file on disk,
`ResourceHandler.process_resources` produces, when
`include_unknown_resources` is true, exactly one record for that key — the
placeholder record, flagged `placeholder = true`, whose hash is the MD5 of
the fixed 1x1 transparent PNG placeholder bytes — and, when the option is
false, no record at all for that key. -/
theorem C1_missing_resource_policy (env : ResEnv) (includeUnknown : Bool)
    (maxSize : Nat) (refs : List String) (ref : String)
    (hnd : refs.Nodup) (hmem : ref ∈ refs) (hnf : env.find ref = none) :
    ((processResources env includeUnknown maxSize refs).filter
        (fun v => v.reference == ref))
      = (if includeUnknown then [createPlaceholderResource env ref] else [])
    ∧ (createPlaceholderResource env ref).placeholder = true
    ∧ (createPlaceholderResource env ref).hash = env.md5 placeholderData := by
  refine ⟨?_, rfl, rfl⟩
  rw [processResources_eq_filterMap env includeUnknown maxSize refs hnd]
  rw [filterMap_resolve_filter env includeUnknown maxSize refs ref hnd hmem]
  unfold resolveRef
  rw [hnf]
  cases includeUnknown <;> simp

theorem C1_missing_resource_policy_witness :
    ((processResources envEmpty true 100 ["missing.png"]).filter
        (fun v => v.reference == "missing.png"))
      = (if true then [createPlaceholderResource envEmpty "missing.png"] else [])
    ∧ (createPlaceholderResource envEmpty "missing.png").placeholder = true
    ∧ (createPlaceholderResource envEmpty "missing.png").hash
        = envEmpty.md5 placeholderData :=
  C1_missing_resource_policy envEmpty true 100 ["missing.png"] "missing.png"
    (by decide) (by decide) rfl

/-- The hash a processed resource file carries. -/
theorem processResourceFile_hash (env : ResEnv) (n : Nat) (file : RFile) (ref : String) :
    (processResourceFile env n file ref).hash =
      if file.bytes.length > n then env.md5 placeholderData else env.md5 file.bytes := by
  unfold processResourceFile
  split
  · rfl
  · dsimp only
    split
    · cases env.getDims file.bytes <;> rfl
    · rfl

/-- The base64 payload a processed resource file carries. -/
theorem processResourceFile_data (env : ResEnv) (n : Nat) (file : RFile) (ref : String) :
    (processResourceFile env n file ref).data =
      if file.bytes.length > n then b64encode placeholderData else b64encode file.bytes := by
  unfold processResourceFile
  split
  · rfl
  · dsimp only
    split
    · cases env.getDims file.bytes <;> rfl
    · rfl

/-- C2 counterexample: with `include_unknown_resources = false` and a file
that exceeds the maximum size, `process_resources` still produces a record
for the key (the placeholder), contradicting the claim that the flag-false
policy of not-found references applies and no record is produced. -/
theorem C2_oversized_counterexample :
    (processResources envBig false 2 ["big"]).filter (fun v => v.reference == "big") ≠ []
    ∧ (processResources envBig false 2 ["big"]).map (fun v => v.placeholder) = [true] := by
  constructor
  · decide
  · decide

/-- C2 (amended): a reference whose backing file exceeds the configured
maximum size always yields exactly one record — the placeholder record,
carrying the fixed placeholder bytes and their MD5 — regardless of the value
of `include_unknown_resources`; in particular the oversized file's bytes are
never embedded or truncated. -/
theorem C2_oversized_amended (env : ResEnv) (includeUnknown : Bool) (maxSize : Nat)
    (refs : List String) (ref : String) (file : RFile)
    (hnd : refs.Nodup) (hmem : ref ∈ refs)
    (hf : env.find ref = some file) (hsize : file.bytes.length > maxSize) :
    ((processResources env includeUnknown maxSize refs).filter
        (fun v => v.reference == ref))
      = [createPlaceholderResource env ref]
    ∧ (createPlaceholderResource env ref).placeholder = true
    ∧ (createPlaceholderResource env ref).data = b64encode placeholderData
    ∧ (createPlaceholderResource env ref).hash = env.md5 placeholderData := by
  refine ⟨?_, rfl, rfl, rfl⟩
  rw [processResources_eq_filterMap _ _ _ _ hnd,
    filterMap_resolve_filter _ _ _ _ _ hnd hmem]
  have hres : resolveRef env includeUnknown maxSize ref
      = some (createPlaceholderResource env ref) := by
    unfold resolveRef
    rw [hf]
    show some (processResourceFile env maxSize file ref) = _
    unfold processResourceFile
    rw [if_pos hsize]
  rw [hres]
  rfl

theorem C2_oversized_amended_witness :
    ((processResources envBig false 2 ["big"]).filter (fun v => v.reference == "big"))
      = [createPlaceholderResource envBig "big"]
    ∧ (createPlaceholderResource envBig "big").placeholder = true
    ∧ (createPlaceholderResource envBig "big").data = b64encode placeholderData
    ∧ (createPlaceholderResource envBig "big").hash = envBig.md5 placeholderData :=
  C2_oversized_amended envBig false 2 ["big"] "big" ⟨"big.bin", [0, 1, 2]⟩
    (by decide) (by decide) (by decide) (by decide)

theorem dictUpsert_mem {α : Type} {m : List (String × α)} {k : String} {v : α}
    {kv : String × α} (h : kv ∈ dictUpsert m k v) : kv ∈ m ∨ kv.2 = v := by
  induction m with
  | nil =>
    simp only [dictUpsert, List.mem_singleton] at h
    exact Or.inr (by rw [h])
  | cons p rest ih =>
    obtain ⟨k', v'⟩ := p
    by_cases hk : k' = k
    · rw [show dictUpsert ((k', v') :: rest) k v = (k', v) :: rest by
        simp [dictUpsert, hk]] at h
      rcases List.mem_cons.mp h with h | h
      · exact Or.inr (by rw [h])
      · exact Or.inl (List.mem_cons_of_mem _ h)
    · rw [show dictUpsert ((k', v') :: rest) k v = (k', v') :: dictUpsert rest k v by
        simp [dictUpsert, hk]] at h
      rcases List.mem_cons.mp h with h | h
      · exact Or.inl (by rw [h]; exact List.mem_cons_self _ _)
      · rcases ih h with h' | h'
        · exact Or.inl (List.mem_cons_of_mem _ h')
        · exact Or.inr h'

/-- Every record `_prepare_resources` stores embeds some byte string together
with exactly its MD5. -/
theorem prepareResources_values (env : ResEnv) (b : Bool) (refs : List String) :
    ∀ kv ∈ prepareResources env b refs,
      ∃ bs, kv.2.data = b64encode bs ∧ kv.2.hash = env.md5 bs := by
  unfold prepareResources
  suffices h : ∀ rmap, (∀ kv ∈ rmap, ∃ bs, kv.2.data = b64encode bs
      ∧ kv.2.hash = env.md5 bs) →
      ∀ kv ∈ prepareResourcesGo env refs rmap,
        ∃ bs, kv.2.data = b64encode bs ∧ kv.2.hash = env.md5 bs by
    exact fun kv hkv => h [] (by simp) kv hkv
  induction refs with
  | nil =>
    intro rmap hacc kv hkv
    exact hacc kv (by simpa [prepareResourcesGo] using hkv)
  | cons ref rest ih =>
    intro rmap hacc kv hkv
    rw [prepareResourcesGo] at hkv
    cases hf : env.find ref with
    | none =>
      rw [hf] at hkv
      exact ih rmap hacc kv hkv
    | some file =>
      rw [hf] at hkv
      dsimp only at hkv
      refine ih _ ?_ kv hkv
      intro kv' hkv'
      rcases dictUpsert_mem hkv' with h' | h'
      · exact hacc kv' h'
      · rw [h']
        refine ⟨file.bytes, ?_, ?_⟩
        · split
          · cases env.getDims file.bytes <;> rfl
          · rfl
        · split
          · cases env.getDims file.bytes <;> rfl
          · rfl

/-- C3: resource resolution is deterministic in the file's bytes — equal
bytes give equal MD5 strings whatever the filename or reference — and every
stored record's hash is the MD5 of exactly the bytes whose base64 encoding
is embedded in the record (file bytes or placeholder bytes, never a partial
read); this holds for `ResourceHandler.process_resources` records and for
`ENMLProcessor._prepare_resources` records alike. -/
theorem C3_hash_determinism (env : ResEnv) (maxSize : Nat) (f1 f2 : RFile)
    (r1 r2 : String) (flag : Bool) (refs refs2 : List String)
    (hb : f1.bytes = f2.bytes) (hnd : refs.Nodup) :
    (processResourceFile env maxSize f1 r1).hash
      = (processResourceFile env maxSize f2 r2).hash
    ∧ (∀ v ∈ processResources env flag maxSize refs,
        ∃ bs, v.data = b64encode bs ∧ v.hash = env.md5 bs)
    ∧ (∀ kv ∈ prepareResources env flag refs2,
        ∃ bs, kv.2.data = b64encode bs ∧ kv.2.hash = env.md5 bs) := by
  refine ⟨?_, ?_, prepareResources_values env flag refs2⟩
  · rw [processResourceFile_hash, processResourceFile_hash, hb]
  · intro v hv
    rw [processResources_eq_filterMap _ _ _ _ hnd] at hv
    rcases List.mem_filterMap.mp hv with ⟨r, _, hres⟩
    unfold resolveRef at hres
    cases hf : env.find r with
    | none =>
      rw [hf] at hres
      cases flag with
      | false => simp at hres
      | true =>
        simp only [if_true] at hres
        obtain rfl := Option.some_injective _ hres
        exact ⟨placeholderData, rfl, rfl⟩
    | some file =>
      rw [hf] at hres
      obtain rfl := Option.some_injective _ hres
      by_cases hsz : file.bytes.length > maxSize
      · refine ⟨placeholderData, ?_, ?_⟩
        · rw [processResourceFile_data, if_pos hsz]
        · rw [processResourceFile_hash, if_pos hsz]
      · refine ⟨file.bytes, ?_, ?_⟩
        · rw [processResourceFile_data, if_neg hsz]
        · rw [processResourceFile_hash, if_neg hsz]

theorem C3_hash_determinism_witness :
    (processResourceFile envBig 10 ⟨"a.png", [0, 1, 2]⟩ "x").hash
      = (processResourceFile envBig 10 ⟨"b.jpg", [0, 1, 2]⟩ "y").hash
    ∧ (∀ v ∈ processResources envBig true 10 ["big", "nope"],
        ∃ bs, v.data = b64encode bs ∧ v.hash = envBig.md5 bs)
    ∧ (∀ kv ∈ prepareResources envBig true ["big", "nope"],
        ∃ bs, kv.2.data = b64encode bs ∧ kv.2.hash = envBig.md5 bs) :=
  C3_hash_determinism envBig 10 ⟨"a.png", [0, 1, 2]⟩ ⟨"b.jpg", [0, 1, 2]⟩
    "x" "y" true ["big", "nope"] ["big", "nope"] rfl (by decide)

/-! ## C10: the pipeline's ENML resource resolution -/

theorem dictUpsert_mem_key {α : Type} {m : List (String × α)} {k : String} {v : α}
    {kv : String × α} (h : kv ∈ dictUpsert m k v) : kv ∈ m ∨ kv.1 = k := by
  induction m with
  | nil =>
    simp only [dictUpsert, List.mem_singleton] at h
    exact Or.inr (by rw [h])
  | cons p rest ih =>
    obtain ⟨k', v'⟩ := p
    by_cases hk : k' = k
    · rw [show dictUpsert ((k', v') :: rest) k v = (k', v) :: rest by
        simp [dictUpsert, hk]] at h
      rcases List.mem_cons.mp h with h | h
      · exact Or.inr (by rw [h]; exact hk)
      · exact Or.inl (List.mem_cons_of_mem _ h)
    · rw [show dictUpsert ((k', v') :: rest) k v = (k', v') :: dictUpsert rest k v by
        simp [dictUpsert, hk]] at h
      rcases List.mem_cons.mp h with h | h
      · exact Or.inl (by rw [h]; exact List.mem_cons_self _ _)
      · rcases ih h with h' | h'
        · exact Or.inl (List.mem_cons_of_mem _ h')
        · exact Or.inr h'

theorem dictLookup_eq_none {α : Type} {m : List (String × α)} {k : String}
    (h : ∀ kv ∈ m, kv.1 ≠ k) : dictLookup m k = none := by
  induction m with
  | nil => rfl
  | cons p rest ih =>
    obtain ⟨k', v'⟩ := p
    have hne : k' ≠ k := h (k', v') (List.mem_cons_self _ _)
    show dictLookup ((k', v') :: rest) k = none
    rw [show dictLookup ((k', v') :: rest) k
        = if k' = k then some v' else dictLookup rest k from rfl]
    rw [if_neg hne]
    exact ih (fun kv hkv => h kv (List.mem_cons_of_mem _ hkv))

/-- Every key the `_prepare_resources` loop stores beyond the accumulator has
a backing file. -/
theorem prepareResourcesGo_keys (env : ResEnv) (refs : List String) :
    ∀ rmap, (∀ kv ∈ rmap, env.find kv.1 ≠ none) →
      ∀ kv ∈ prepareResourcesGo env refs rmap, env.find kv.1 ≠ none := by
  induction refs with
  | nil =>
    intro rmap hacc kv hkv
    exact hacc kv (by simpa [prepareResourcesGo] using hkv)
  | cons ref rest ih =>
    intro rmap hacc kv hkv
    rw [prepareResourcesGo] at hkv
    cases hf : env.find ref with
    | none =>
      rw [hf] at hkv
      exact ih rmap hacc kv hkv
    | some file =>
      rw [hf] at hkv
      dsimp only at hkv
      refine ih _ ?_ kv hkv
      intro kv' hkv'
      rcases dictUpsert_mem_key hkv' with h' | h'
      · exact hacc kv' h'
      · rw [h', hf]; exact fun hc => Option.noConfusion hc

/-- A single-character `str.replace` removes every occurrence of the
character provided the replacement avoids it. -/
theorem replaceAll_single_not_mem {c : Char} {r : List Char} (hr : c ∉ r) :
    ∀ s : List Char, c ∉ replaceAll s [c] r := by
  intro s
  induction s with
  | nil => rw [replaceAll, scanSub_nil]; exact List.not_mem_nil c
  | cons x rest ih =>
    by_cases hx : x = c
    · subst hx
      have hm : litMatcher [x] r (x :: rest) = some (r, rest) := by
        simp [litMatcher, pstarts]
      rw [replaceAll, scanSub_cons_match hm (Nat.le_refl _)]
      intro hmem
      rcases List.mem_append.mp hmem with h | h
      · exact hr h
      · exact ih h
    · have hm : litMatcher [c] r (x :: rest) = none := by
        simp [litMatcher, pstarts, Ne.symm hx]
      rw [replaceAll, scanSub_cons_nomatch hm]
      intro hmem
      rcases List.mem_cons.mp hmem with h | h
      · exact hx h.symm
      · exact ih h

/-- `str.replace` cannot introduce a character absent from both the subject
and the replacement. -/
theorem replaceAll_not_mem {c : Char} :
    ∀ (n : Nat) (s p r : List Char), s.length ≤ n → c ∉ s → c ∉ r →
      c ∉ replaceAll s p r := by
  intro n
  induction n with
  | zero =>
    intro s p r hlen hs _
    rw [List.length_eq_zero.mp (Nat.le_zero.mp hlen)]
    rw [replaceAll, scanSub_nil]
    exact List.not_mem_nil c
  | succ n ih =>
    intro s p r hlen hs hr
    cases s with
    | nil => rw [replaceAll, scanSub_nil]; exact List.not_mem_nil c
    | cons x rest =>
      have hlen' : rest.length ≤ n := by
        simp only [List.length_cons] at hlen
        omega
      cases hm : litMatcher p r (x :: rest) with
      | none =>
        rw [replaceAll, scanSub_cons_nomatch hm]
        intro hmem
        rcases List.mem_cons.mp hmem with h | h
        · exact hs (h ▸ List.mem_cons_self _ _)
        · exact ih rest p r hlen' (fun hc => hs (List.mem_cons_of_mem _ hc)) hr h
      | some q =>
        obtain ⟨r', t⟩ := q
        have hcond : (p ≠ [] && pstarts p (x :: rest)) = true := by
          by_contra hc
          unfold litMatcher at hm
          rw [if_neg (by simpa using hc)] at hm
          exact Option.noConfusion hm
        have hq : r' = r ∧ t = (x :: rest).drop p.length := by
          unfold litMatcher at hm
          rw [if_pos hcond] at hm
          have := Option.some_injective _ hm
          exact ⟨congrArg Prod.fst this.symm, congrArg Prod.snd this.symm⟩
        obtain ⟨hq1, hq2⟩ := hq
        subst hq2
        have hpne : p ≠ [] := by
          intro hp
          simp [hp] at hcond
        have hlt : ((x :: rest).drop p.length).length ≤ rest.length := by
          rw [List.length_drop]
          cases p with
          | nil => exact absurd rfl hpne
          | cons a as => simp only [List.length_cons]; omega
        rw [replaceAll, scanSub_cons_match hm hlt]
        intro hmem
        rcases List.mem_append.mp hmem with h | h
        · exact hr (hq1 ▸ h)
        · refine ih _ p r (Nat.le_trans hlt hlen') ?_ hr h
          intro hc
          exact hs (List.mem_of_mem_drop hc)

/-- `html.escape` output never contains `<`. -/
theorem escapeHtmlPy_no_lt (s : List Char) : '<' ∉ escapeHtmlPy s := by
  unfold escapeHtmlPy
  have h1 : '<' ∉ replaceAll (replaceAll s ['&'] "&amp;".data) ['<'] "&lt;".data :=
    replaceAll_single_not_mem (by decide) _
  have h2 : '<' ∉ replaceAll _ ['>'] "&gt;".data :=
    replaceAll_not_mem _ _ _ _ (Nat.le_refl _) h1 (by decide)
  have h3 : '<' ∉ replaceAll _ ['"'] "&quot;".data :=
    replaceAll_not_mem _ _ _ _ (Nat.le_refl _) h2 (by decide)
  exact replaceAll_not_mem _ _ _ _ (Nat.le_refl _) h3 (by decide)

/-- The img-tag matcher needs `<` at the match position. -/
theorem matchImgTag_none_head {c : Char} (t : List Char) (h : c ≠ '<') :
    matchImgTag (c :: t) = none := by
  have hps : pstarts "<img".data (c :: t) = false := by
    rw [show "<img".data = '<' :: "img".data from rfl]
    rw [show pstarts ('<' :: "img".data) (c :: t)
        = (('<' : Char) == c && pstarts "img".data t) from rfl]
    simp [Ne.symm h]
  unfold matchImgTag
  rw [hps]
  rfl

/-- The img-tag matcher needs `i` right after the `<`. -/
theorem matchImgTag_none_second {c d : Char} (t : List Char) (h : d ≠ 'i') :
    matchImgTag (c :: d :: t) = none := by
  have hps : pstarts "<img".data (c :: d :: t) = false := by
    rw [show "<img".data = '<' :: 'i' :: "mg".data from rfl]
    rw [show pstarts ('<' :: 'i' :: "mg".data) (c :: d :: t)
        = (('<' : Char) == c && (('i' : Char) == d && pstarts "mg".data t)) from rfl]
    simp [Ne.symm h]
  unfold matchImgTag
  rw [hps]
  rfl

/-- A scan whose matcher fails on every character of a prefix passes the
prefix through untouched. -/
theorem scanSub_skip (m : List Char → Option (List Char × List Char))
    (hm : ∀ (c : Char) (t : List Char), c ≠ '<' → m (c :: t) = none) :
    ∀ (xs ys : List Char), '<' ∉ xs → scanSub m (xs ++ ys) = xs ++ scanSub m ys := by
  intro xs
  induction xs with
  | nil => intro ys _; rfl
  | cons x rest ih =>
    intro ys hxs
    have hx : x ≠ '<' := fun hc => hxs (hc ▸ List.mem_cons_self _ _)
    rw [List.cons_append,
      scanSub_cons_nomatch (hm x (rest ++ ys) hx),
      ih ys (fun hc => hxs (List.mem_cons_of_mem _ hc)),
      List.cons_append]

theorem scanSub_skip_all (m : List Char → Option (List Char × List Char))
    (hm : ∀ (c : Char) (t : List Char), c ≠ '<' → m (c :: t) = none)
    (xs : List Char) (hxs : '<' ∉ xs) : scanSub m xs = xs := by
  have h := scanSub_skip m hm xs [] hxs
  rw [List.append_nil] at h
  rw [h, scanSub_nil, List.append_nil]

theorem scanSub_match_of_lt {m : List Char → Option (List Char × List Char)}
    {s r t : List Char} (hm : m s = some (r, t)) (hl : t.length < s.length) :
    scanSub m s = r ++ scanSub m t := by
  cases s with
  | nil => simp at hl
  | cons c rest =>
    exact scanSub_cons_match hm (by simpa [Nat.lt_succ_iff] using hl)

/-- C10: in the ENML conversion stage the pipeline actually uses,
`_prepare_resources` resolves references on its own, ignoring
`include_unknown_resources` entirely (the output is the same for both flag
values); a reference with no backing file yields no record at all for its
key (never a placeholder); and an image marker whose path has no resource
record is rendered as a visible `<div>[Image not found: ...]</div>` with the
path HTML-escaped, instead of an en-media tag. -/
theorem C10_enml_resource_resolution (env : ResEnv) (flag1 flag2 : Bool)
    (refs : List String) (ref : String) (p alt : String) (pos : Nat)
    (hnf : env.find ref = none) :
    prepareResources env flag1 refs = prepareResources env flag2 refs
    ∧ dictLookup (prepareResources env flag1 refs) ref = none
    ∧ processImageReferencesEnml [⟨p, alt, "IMG_1", pos⟩] []
        "<en-media-marker id=\"IMG_1\"></en-media-marker>".data
      = "<div>[Image not found: ".data ++ escapeHtmlPy p.data ++ "]</div>".data := by
  refine ⟨rfl, ?_, ?_⟩
  · refine dictLookup_eq_none ?_
    intro kv hkv he
    have := prepareResourcesGo_keys env refs [] (by simp) kv hkv
    rw [he] at this
    exact this hnf
  · unfold processImageReferencesEnml
    have hmm : (fun t => (matchMarkerTag t).map
        (fun q => (replaceMarkerRepl [⟨p, alt, "IMG_1", pos⟩] [] q.1, q.2)))
        "<en-media-marker id=\"IMG_1\"></en-media-marker>".data
        = some (replaceMarkerRepl [⟨p, alt, "IMG_1", pos⟩] [] "IMG_1", []) := by
      show (matchMarkerTag "<en-media-marker id=\"IMG_1\"></en-media-marker>".data).map
        (fun q => (replaceMarkerRepl [⟨p, alt, "IMG_1", pos⟩] [] q.1, q.2))
        = some (replaceMarkerRepl [⟨p, alt, "IMG_1", pos⟩] [] "IMG_1", [])
      rw [show matchMarkerTag "<en-media-marker id=\"IMG_1\"></en-media-marker>".data
          = some ("IMG_1", []) from by decide]
      rfl
    have h1 : scanSub (fun t => (matchMarkerTag t).map
        (fun q => (replaceMarkerRepl [⟨p, alt, "IMG_1", pos⟩] [] q.1, q.2)))
        "<en-media-marker id=\"IMG_1\"></en-media-marker>".data
        = replaceMarkerRepl [⟨p, alt, "IMG_1", pos⟩] [] "IMG_1" := by
      rw [scanSub_match_of_lt hmm (by decide), scanSub_nil, List.append_nil]
    rw [h1]
    have hrepl : replaceMarkerRepl [⟨p, alt, "IMG_1", pos⟩] [] "IMG_1"
        = "<div>[Image not found: ".data ++ escapeHtmlPy p.data ++ "]</div>".data := by
      unfold replaceMarkerRepl
      rw [show (([⟨p, alt, "IMG_1", pos⟩] : List ImageRef).find?
          (fun r => r.markerId == "IMG_1")) = some ⟨p, alt, "IMG_1", pos⟩ from by
        simp [List.find?]]
      dsimp only
      rw [show getResourceInfoForPath [] p = none from rfl]
    rw [hrepl]
    set e := escapeHtmlPy p.data with he
    have hml : ∀ (c : Char) (t : List Char), c ≠ '<' →
        (fun u => (matchImgTag u).map
          (fun q => (replaceImgRepl [] q.1 q.2.1 q.2.2.1, q.2.2.2))) (c :: t) = none := by
      intro c t hc
      simp only
      rw [matchImgTag_none_head t hc]
      rfl
    rw [show ("<div>[Image not found: ".data ++ e ++ "]</div>".data : List Char)
        = '<' :: ("div>[Image not found: ".data ++ (e ++ "]</div>".data)) from by
      simp]
    rw [scanSub_cons_nomatch (by
      rw [show ("div>[Image not found: ".data ++ (e ++ "]</div>".data) : List Char)
          = 'd' :: ("iv>[Image not found: ".data ++ (e ++ "]</div>".data)) from by simp]
      simp only
      rw [matchImgTag_none_second _ (by decide)]
      rfl)]
    rw [scanSub_skip _ hml "div>[Image not found: ".data _ (by decide)]
    rw [scanSub_skip _ hml e _ (escapeHtmlPy_no_lt p.data)]
    rw [show ("]</div>".data : List Char) = ']' :: ('<' :: "/div>".data) from rfl]
    rw [scanSub_cons_nomatch (hml ']' _ (by decide))]
    rw [scanSub_cons_nomatch (by
      simp only
      rw [matchImgTag_none_second _ (by decide)]
      rfl)]
    rw [scanSub_skip_all _ hml "/div>".data (by decide)]

theorem C10_enml_resource_resolution_witness :
    prepareResources envEmpty true ["x.png"] = prepareResources envEmpty false ["x.png"]
    ∧ dictLookup (prepareResources envEmpty true ["x.png"]) "x.png" = none
    ∧ processImageReferencesEnml [⟨"pic.png", "", "IMG_1", 0⟩] []
        "<en-media-marker id=\"IMG_1\"></en-media-marker>".data
      = "<div>[Image not found: ".data ++ escapeHtmlPy "pic.png".data
          ++ "]</div>".data :=
  C10_enml_resource_resolution envEmpty true false ["x.png"] "x.png" "pic.png" "" 0 rfl

theorem takeRun_append (p : Char → Bool) :
    ∀ s : List Char, (takeRun p s).1 ++ (takeRun p s).2 = s := by
  intro s
  induction s with
  | nil => rfl
  | cons c rest ih =>
    rw [takeRun]
    by_cases hc : p c = true
    · simp only [hc, if_true]
      show (c :: (takeRun p rest).1) ++ (takeRun p rest).2 = c :: rest
      rw [List.cons_append, ih]
    · simp only [hc]
      simp

theorem takeRun_all (p : Char → Bool) :
    ∀ (s : List Char) (c : Char), c ∈ (takeRun p s).1 → p c = true := by
  intro s
  induction s with
  | nil => intro c h; exact absurd h (List.not_mem_nil c)
  | cons x rest ih =>
    intro c h
    rw [takeRun] at h
    by_cases hx : p x = true
    · simp only [hx, if_true] at h
      rcases List.mem_cons.mp h with h1 | h1
      · exact h1 ▸ hx
      · exact ih c h1
    · simp [hx] at h

theorem wsNlCandidates_spec {s a : List Char} (h : a ∈ wsNlCandidates s) :
    ∃ w, (∀ c ∈ w, isPyWs c = true) ∧ s = w ++ '\n' :: a := by
  simp only [wsNlCandidates, List.mem_map, List.mem_reverse] at h
  obtain ⟨i, hmem, h⟩ := h
  rw [List.mem_filter] at hmem
  obtain ⟨hrange, hp⟩ := hmem
  rw [List.mem_range] at hrange
  have hget : (takeRun isPyWs s).1.get? i = some '\n' := beq_iff_eq.mp hp
  have happ := takeRun_append isPyWs s
  have hlen : (takeRun isPyWs s).1.length ≤ s.length := by
    have hl := congrArg List.length happ
    rw [List.length_append] at hl
    omega
  have hsget : s.get? i = some '\n' := by
    rw [← happ, List.get?_append hrange]
    exact hget
  have hilt : i < s.length := Nat.lt_of_lt_of_le hrange hlen
  have hgetel : s[i] = '\n' := by
    rw [List.getElem_eq_iff]
    rw [← List.get?_eq_getElem?]
    exact hsget
  have hdrop : s.drop i = '\n' :: s.drop (i + 1) := by
    rw [List.drop_eq_getElem_cons hilt, hgetel]
  refine ⟨s.take i, ?_, ?_⟩
  · intro c hc
    have htake : s.take i = (takeRun isPyWs s).1.take i := by
      conv_lhs => rw [← happ]
      rw [List.take_append_of_le_length (Nat.le_of_lt hrange)]
    rw [htake] at hc
    exact takeRun_all isPyWs s c (List.take_subset i _ hc)
  · rw [← h, ← hdrop, List.take_append_drop]

theorem wsThenNl_spec {s after : List Char} (h : wsThenNl s = some after) :
    ∃ w, (∀ c ∈ w, isPyWs c = true) ∧ s = w ++ '\n' :: after :=
  wsNlCandidates_spec (List.mem_of_mem_head? h)

theorem fmFindClose_spec :
    ∀ (s g after : List Char), fmFindClose s = some (g, after) →
      ∃ w, (∀ c ∈ w, isPyWs c = true)
        ∧ s = g ++ '\n' :: '-' :: '-' :: '-' :: (w ++ '\n' :: after) := by
  intro s
  induction s with
  | nil =>
    intro g after h
    exact absurd h (by simp [fmFindClose])
  | cons c rest ih =>
    intro g after h
    rw [fmFindClose] at h
    by_cases hp : pstarts ['\n', '-', '-', '-'] (c :: rest) = true
    · rw [if_pos hp] at h
      rcases rest with _ | ⟨c1, rest1⟩
      · simp [pstarts] at hp
      rcases rest1 with _ | ⟨c2, rest2⟩
      · simp [pstarts] at hp
      rcases rest2 with _ | ⟨c3, rest3⟩
      · simp [pstarts] at hp
      simp only [pstarts, Bool.and_eq_true, beq_iff_eq] at hp
      obtain ⟨hc, hc1, hc2, hc3, -⟩ := hp
      subst hc; subst hc1; subst hc2; subst hc3
      rcases hw : wsThenNl (('\n' :: '-' :: '-' :: '-' :: rest3).drop 4) with _ | after'
      · rw [hw] at h
        simp only [Option.map_eq_some'] at h
        obtain ⟨p', hp', heq⟩ := h
        obtain ⟨w, hwws, hrec⟩ := ih _ _ hp'
        refine ⟨w, hwws, ?_⟩
        have hg : g = '\n' :: p'.1 := by
          have := congrArg Prod.fst heq
          exact this.symm
        have ha : after = p'.2 := by
          have := congrArg Prod.snd heq
          exact this.symm
        subst hg; subst ha
        rw [List.cons_append, ← hrec]
      · rw [hw] at h
        simp only [Option.some.injEq, Prod.mk.injEq] at h
        obtain ⟨hg, ha⟩ := h
        subst hg; subst ha
        obtain ⟨w, hwws, hrec⟩ := wsThenNl_spec hw
        refine ⟨w, hwws, ?_⟩
        simp only [List.drop] at hrec
        rw [List.nil_append]
        rw [hrec]
    · rw [if_neg hp] at h
      simp only [Option.map_eq_some'] at h
      obtain ⟨p', hp', heq⟩ := h
      obtain ⟨w, hwws, hrec⟩ := ih _ _ hp'
      refine ⟨w, hwws, ?_⟩
      have hg : g = c :: p'.1 := by
        have := congrArg Prod.fst heq
        exact this.symm
      have ha : after = p'.2 := by
        have := congrArg Prod.snd heq
        exact this.symm
      subst hg; subst ha
      rw [List.cons_append, ← hrec]

theorem fmTryOpens_mem :
    ∀ (cands : List (List Char)) (g rest : List Char),
      fmTryOpens cands = some (g, rest) →
      ∃ a ∈ cands, fmFindClose a = some (g, rest) := by
  intro cands
  induction cands with
  | nil =>
    intro g rest h
    exact absurd h (by simp [fmTryOpens])
  | cons a cs ih =>
    intro g rest h
    rw [fmTryOpens] at h
    rcases hf : fmFindClose a with _ | p
    · rw [hf] at h
      obtain ⟨b, hb, hfb⟩ := ih g rest h
      exact ⟨b, List.mem_cons_of_mem a hb, hfb⟩
    · rw [hf] at h
      dsimp only at h
      exact ⟨a, List.mem_cons_self a cs, hf.trans h⟩

theorem fmMatch_spec {content g rest : List Char}
    (h : fmMatch content = some (g, rest)) :
    ∃ w1 w2, (∀ c ∈ w1, isPyWs c = true) ∧ (∀ c ∈ w2, isPyWs c = true)
      ∧ content = '-' :: '-' :: '-'
          :: (w1 ++ '\n' :: (g ++ '\n' :: '-' :: '-' :: '-' :: (w2 ++ '\n' :: rest))) := by
  unfold fmMatch at h
  split at h
  · rename_i rest0
    obtain ⟨a, ha, hf⟩ := fmTryOpens_mem _ g rest h
    obtain ⟨w1, hw1ws, hrec1⟩ := wsNlCandidates_spec ha
    obtain ⟨w2, hw2ws, hrec2⟩ := fmFindClose_spec a g rest hf
    exact ⟨w1, w2, hw1ws, hw2ws, by rw [hrec1, hrec2]⟩
  · exact absurd h (by simp)

theorem char_ofNat_toNat_64 {n : Nat} (h1 : 97 ≤ n) (h2 : n ≤ 122) :
    (Char.ofNat n).toNat = n := by
  unfold Char.ofNat
  rw [dif_pos (Or.inl (by omega))]
  unfold Char.ofNatAux
  show (UInt32.ofNat' n _).toNat = n
  simp [UInt32.ofNat', UInt32.toNat, Nat.mod_eq_of_lt (by omega : n < 4294967296)]

theorem toLowerAscii_idem (c : Char) :
    toLowerAscii (toLowerAscii c) = toLowerAscii c := by
  by_cases h : 'A' ≤ c ∧ c ≤ 'Z'
  · have hA : 65 ≤ c.toNat := by
      have := h.1
      rw [Char.le_def, UInt32.le_def, BitVec.le_def] at this
      exact this
    have hZ : c.toNat ≤ 90 := by
      have := h.2
      rw [Char.le_def, UInt32.le_def, BitVec.le_def] at this
      exact this
    have htn : (Char.ofNat (c.toNat + 32)).toNat = c.toNat + 32 :=
      char_ofNat_toNat_64 (by omega) (by omega)
    have hlc : toLowerAscii c = Char.ofNat (c.toNat + 32) := by
      rw [toLowerAscii, if_pos h]
    rw [hlc]
    rw [toLowerAscii, if_neg ?_]
    intro hcon
    have := hcon.2
    rw [Char.le_def, UInt32.le_def, BitVec.le_def] at this
    have hzz : (Char.ofNat (c.toNat + 32)).toNat ≤ 90 := this
    omega
  · have hlc : toLowerAscii c = c := by
      rw [toLowerAscii, if_neg h]
    rw [hlc]
    exact hlc

theorem pyLower_idem (s : List Char) : pyLower (pyLower s) = pyLower s := by
  unfold pyLower
  rw [List.map_map]
  exact List.map_congr_left (fun c _ => toLowerAscii_idem c)

theorem fmParseLine_key {tryDate : String → Option Nat}
    {md : List (String × MetaValue)} {line : List Char} {kv : String × MetaValue}
    (h : kv ∈ fmParseLine tryDate md line) :
    kv ∈ md ∨ ∃ x : List Char, kv.1 = ⟨pyLower x⟩ := by
  rw [fmParseLine] at h
  by_cases hc : ':' ∈ line
  · rw [if_pos hc] at h
    rcases hs : splitFirst [':'] line with _ | kv2
    · rw [hs] at h
      exact Or.inl h
    · rw [hs] at h
      dsimp only at h
      by_cases hk : (⟨pyLower (pyStrip kv2.1)⟩ : String)
          ∈ (["created", "updated", "date"] : List String)
      · rw [if_pos hk] at h
        rcases htd : tryDate ⟨pyStrip kv2.2⟩ with _ | d
        · rw [htd] at h
          dsimp only at h
          rcases dictUpsert_mem_key h with h1 | h1
          · exact Or.inl h1
          · exact Or.inr ⟨pyStrip kv2.1, h1⟩
        · rw [htd] at h
          dsimp only at h
          rcases dictUpsert_mem_key h with h1 | h1
          · exact Or.inl h1
          · exact Or.inr ⟨pyStrip kv2.1, h1⟩
      · rw [if_neg hk] at h
        by_cases hl : ',' ∈ (⟨pyStrip kv2.2⟩ : String).data
            ∧ (⟨pyLower (pyStrip kv2.1)⟩ : String)
                ∈ (["tags", "keywords", "categories"] : List String)
        · rw [if_pos hl] at h
          rcases dictUpsert_mem_key h with h1 | h1
          · exact Or.inl h1
          · exact Or.inr ⟨pyStrip kv2.1, h1⟩
        · rw [if_neg hl] at h
          rcases dictUpsert_mem_key h with h1 | h1
          · exact Or.inl h1
          · exact Or.inr ⟨pyStrip kv2.1, h1⟩
  · rw [if_neg hc] at h
    exact Or.inl h

theorem fmFold_key {tryDate : String → Option Nat} :
    ∀ (lines : List (List Char)) (md : List (String × MetaValue))
      (kv : String × MetaValue),
      kv ∈ lines.foldl (fmParseLine tryDate) md →
      kv ∈ md ∨ ∃ x : List Char, kv.1 = ⟨pyLower x⟩ := by
  intro lines
  induction lines with
  | nil => intro md kv h; exact Or.inl h
  | cons l rest ih =>
    intro md kv h
    rw [List.foldl_cons] at h
    rcases ih _ kv h with h1 | h1
    · exact fmParseLine_key h1
    · exact Or.inr h1

theorem splitFirst_first_colon {k : List Char} (hk : ':' ∉ k) (v : List Char) :
    splitFirst [':'] (k ++ ':' :: v) = some (k, v) := by
  induction k with
  | nil => simp [splitFirst, pstarts]
  | cons c rest ih =>
    simp only [List.mem_cons, not_or] at hk
    rw [List.cons_append, splitFirst, if_neg (by simp [pstarts, hk.1])]
    rw [ih hk.2]
    rfl

/-- C8: `extract_frontmatter` (i) returns the input unchanged with an empty
metadata map whenever the content does not begin with a well-formed
`---\s*\n(.*?)\n---\s*\n` block (the matcher returning `none` — malformed
blocks never raise, the Lean embedding being total by construction);
(ii) when the block matches, the returned body is exactly the text after
the whole match, which the reconstruction conjunct shows excludes the
delimiters, the whitespace runs and the frontmatter text entirely;
(iii) every key stored in the metadata map is already lowercased
(lowercasing it again is the identity); (iv) a `key: value` line whose
lowercased stripped key is `tags`, `keywords` or `categories` and whose
stripped value contains a comma is stored as the list of comma-separated,
individually stripped items; and (v) the spec's scenario 3 holds
concretely: `title: X` / `tags: a, b` yields `title == "X"`,
`tags == ["a", "b"]` and body `Body`. -/
theorem C8_frontmatter :
    (∀ (tryDate : String → Option Nat) (content : String),
        fmMatch content.data = none →
        extractFrontmatter tryDate content = (content, []))
    ∧ (∀ (tryDate : String → Option Nat) (content : String) (g rest : List Char),
        fmMatch content.data = some (g, rest) →
        (extractFrontmatter tryDate content).1 = ⟨rest⟩
        ∧ ∃ w1 w2, (∀ c ∈ w1, isPyWs c = true) ∧ (∀ c ∈ w2, isPyWs c = true)
            ∧ content.data = '-' :: '-' :: '-'
                :: (w1 ++ '\n' :: (g ++ '\n' :: '-' :: '-' :: '-' :: (w2 ++ '\n' :: rest))))
    ∧ (∀ (tryDate : String → Option Nat) (content : String) (kv : String × MetaValue),
        kv ∈ (extractFrontmatter tryDate content).2 →
        (⟨pyLower kv.1.data⟩ : String) = kv.1)
    ∧ (∀ (tryDate : String → Option Nat) (md : List (String × MetaValue)) (k v : List Char),
        ':' ∉ k →
        (⟨pyLower (pyStrip k)⟩ : String) ∈ (["tags", "keywords", "categories"] : List String) →
        ',' ∈ pyStrip v →
        fmParseLine tryDate md (k ++ ':' :: v)
          = dictUpsert md ⟨pyLower (pyStrip k)⟩
              (.list ((pySplitChar ',' (pyStrip v)).map (fun it => ⟨pyStrip it⟩))))
    ∧ extractFrontmatter (fun _ => none) "---\ntitle: X\ntags: a, b\n---\nBody"
        = ("Body", [("title", .str "X"), ("tags", .list ["a", "b"])]) := by
  refine ⟨?_, ?_, ?_, ?_, by decide⟩
  · intro tryDate content h
    rw [extractFrontmatter, h]
  · intro tryDate content g rest h
    constructor
    · rw [extractFrontmatter, h]
    · exact fmMatch_spec h
  · intro tryDate content kv h
    rw [extractFrontmatter] at h
    rcases hm : fmMatch content.data with _ | p
    · rw [hm] at h
      exact absurd h (List.not_mem_nil kv)
    · rw [hm] at h
      dsimp only at h
      rcases fmFold_key _ _ kv h with h1 | ⟨x, hx⟩
      · exact absurd h1 (List.not_mem_nil kv)
      · rw [hx]
        exact congrArg String.mk (pyLower_idem x)
  · intro tryDate md k v hk hmem hcomma
    rw [fmParseLine,
      if_pos (List.mem_append_right k (List.mem_cons_self ':' v)),
      splitFirst_first_colon hk v]
    dsimp only
    rw [if_neg ?_, if_pos ⟨hcomma, hmem⟩]
    simp only [List.mem_cons] at hmem
    rcases hmem with h1 | h1 | h1 | h1
    · rw [h1]; decide
    · rw [h1]; decide
    · rw [h1]; decide
    · exact absurd h1 (List.not_mem_nil _)

theorem C8_frontmatter_witness :
    extractFrontmatter (fun _ => none) "no block here" = ("no block here", [])
    ∧ (extractFrontmatter (fun _ => none) "---\na: b\n---\nrest").1 = "rest"
    ∧ (⟨pyLower ("title" : String).data⟩ : String) = "title"
    ∧ fmParseLine (fun _ => none) [] ("tags".data ++ ':' :: " a, b".data)
        = dictUpsert [] ⟨pyLower (pyStrip "tags".data)⟩
            (.list ((pySplitChar ',' (pyStrip " a, b".data)).map (fun it => ⟨pyStrip it⟩)))
    ∧ extractFrontmatter (fun _ => none) "---\ntitle: X\ntags: a, b\n---\nBody"
        = ("Body", [("title", .str "X"), ("tags", .list ["a", "b"])]) :=
  ⟨C8_frontmatter.1 (fun _ => none) "no block here" (by decide),
   (C8_frontmatter.2.1 (fun _ => none) "---\na: b\n---\nrest" "a: b".data "rest".data
     (by decide)).1,
   C8_frontmatter.2.2.1 (fun _ => none) "---\ntitle: X\n---\nB" ("title", .str "X")
     (by decide),
   C8_frontmatter.2.2.2.1 (fun _ => none) [] "tags".data " a, b".data
     (by decide) (by decide) (by decide),
   C8_frontmatter.2.2.2.2⟩

theorem imgScanF_inv (idGen : Nat → String) (opts : MdOptions)
    (hinj : ∀ k k' : Nat, "IMG_" ++ idGen k = "IMG_" ++ idGen k' → k = k') :
    ∀ (fuel : Nat) (s : List Char) (i ctr : Nat) (reg : List ImageRef)
      (refs : List String) (out : List Char) (ctr' : Nat) (reg' : List ImageRef)
      (refs' : List String),
      imgScanF idGen opts fuel s i ctr reg refs = (out, ctr', reg', refs') →
      ctr ≤ ctr'
      ∧ (∀ x ∈ refs, x ∈ refs')
      ∧ (∀ r ∈ reg', r ∈ reg
          ∨ (r.path ∈ refs'
             ∧ (∃ k, ctr ≤ k ∧ k < ctr' ∧ r.markerId = "IMG_" ++ idGen k)
             ∧ (opts.preserveImageMarkdown = false →
                ∃ pre post, out = pre ++ markerTag r.markerId ++ post)))
      ∧ ((reg.map (fun r => r.markerId)).Nodup →
         (∀ r ∈ reg, ∀ k, ctr ≤ k → r.markerId ≠ "IMG_" ++ idGen k) →
         ((reg'.map (fun r => r.markerId)).Nodup
          ∧ ∀ r ∈ reg', ∀ k, ctr' ≤ k → r.markerId ≠ "IMG_" ++ idGen k)) := by
  intro fuel
  induction fuel with
  | zero =>
    intro s i ctr reg refs out ctr' reg' refs' h
    have hh : ((s, ctr, reg, refs) : List Char × Nat × List ImageRef × List String)
        = (out, ctr', reg', refs') := by
      cases s <;> exact h
    simp only [Prod.mk.injEq] at hh
    obtain ⟨-, h2, h3, h4⟩ := hh
    subst h2; subst h3; subst h4
    exact ⟨Nat.le_refl _, fun x hx => hx, fun r hr => Or.inl hr,
      fun h1 h2 => ⟨h1, fun r hr k hk => h2 r hr k hk⟩⟩
  | succ f ih =>
    intro s i ctr reg refs out ctr' reg' refs' h
    cases s with
    | nil =>
      simp only [imgScanF, Prod.mk.injEq] at h
      obtain ⟨-, h2, h3, h4⟩ := h
      subst h2; subst h3; subst h4
      exact ⟨Nat.le_refl _, fun x hx => hx, fun r hr => Or.inl hr,
        fun h1 h2 => ⟨h1, fun r hr k hk => h2 r hr k hk⟩⟩
    | cons c rest =>
      rw [imgScanF] at h
      rcases hm : matchImage (c :: rest) with _ | q
      · rw [hm] at h
        dsimp only at h
        rcases hres : imgScanF idGen opts f rest (i + 1) ctr reg refs
          with ⟨out1, ctr1, reg1, refs1⟩
        rw [hres] at h
        simp only [Prod.mk.injEq] at h
        obtain ⟨h1, h2, h3, h4⟩ := h
        subst h2; subst h3; subst h4; subst h1
        obtain ⟨g1, g2, g3, g4⟩ := ih rest (i + 1) ctr reg refs out1 ctr1 reg1 refs1 hres
        refine ⟨g1, g2, ?_, g4⟩
        intro r hr
        rcases g3 r hr with hin | ⟨hp, hk, htxt⟩
        · exact Or.inl hin
        · refine Or.inr ⟨hp, hk, ?_⟩
          intro hpre
          obtain ⟨pre, post, hsplit⟩ := htxt hpre
          refine ⟨c :: pre, post, ?_⟩
          rw [hsplit]
          simp [List.cons_append, List.append_assoc]
      · rw [hm] at h
        dsimp only at h
        have hgen : ∀ (stO : List Char) (stR : List ImageRef) (stF : List String),
            processImageMatch opts ("IMG_" ++ idGen ctr) i q.1 q.2.1 q.2.2.1 reg refs
              = (stO, stR, stF) →
            ∀ (X : List Char) (i2 : Nat),
            (stO ++ (imgScanF idGen opts f X i2 (ctr + 1) stR stF).1,
              (imgScanF idGen opts f X i2 (ctr + 1) stR stF).2) = (out, ctr', reg', refs') →
            ctr ≤ ctr'
            ∧ (∀ x ∈ refs, x ∈ refs')
            ∧ (∀ r ∈ reg', r ∈ reg
                ∨ (r.path ∈ refs'
                   ∧ (∃ k, ctr ≤ k ∧ k < ctr' ∧ r.markerId = "IMG_" ++ idGen k)
                   ∧ (opts.preserveImageMarkdown = false →
                      ∃ pre post, out = pre ++ markerTag r.markerId ++ post)))
            ∧ ((reg.map (fun r => r.markerId)).Nodup →
               (∀ r ∈ reg, ∀ k, ctr ≤ k → r.markerId ≠ "IMG_" ++ idGen k) →
               ((reg'.map (fun r => r.markerId)).Nodup
                ∧ ∀ r ∈ reg', ∀ k, ctr' ≤ k → r.markerId ≠ "IMG_" ++ idGen k)) := by
          intro stO stR stF hst X i2 hh
          rcases hrec : imgScanF idGen opts f X i2 (ctr + 1) stR stF
            with ⟨out1, ctr1, reg1, refs1⟩
          rw [hrec] at hh
          simp only [Prod.mk.injEq] at hh
          obtain ⟨hout, hc2, hr2, hf2⟩ := hh
          subst hc2; subst hr2; subst hf2; subst hout
          obtain ⟨g1, g2, g3, g4⟩ := ih X i2 (ctr + 1) stR stF out1 ctr1 reg1 refs1 hrec
          have hctr : ctr ≤ ctr1 := Nat.le_trans (Nat.le_succ ctr) g1
          rw [processImageMatch] at hst
          rcases hnp : normalizeResourcePath ⟨q.2.1⟩ with _ | np
          · rw [hnp] at hst
            dsimp only at hst
            simp only [Prod.mk.injEq] at hst
            obtain ⟨hsO, hsR, hsF⟩ := hst
            subst hsR; subst hsF
            refine ⟨hctr, g2, ?_, ?_⟩
            · intro r hr
              rcases g3 r hr with hin | ⟨hp, ⟨k, hk1, hk2, hk3⟩, htxt⟩
              · exact Or.inl hin
              · refine Or.inr ⟨hp, ⟨k, Nat.le_trans (Nat.le_succ ctr) hk1, hk2, hk3⟩, ?_⟩
                intro hpre
                obtain ⟨pre, post, hsplit⟩ := htxt hpre
                refine ⟨stO ++ pre, post, ?_⟩
                rw [hsplit]
                simp [List.append_assoc]
            · intro h1 h2
              exact g4 h1 (fun r hr k hk => h2 r hr k (Nat.le_trans (Nat.le_succ ctr) hk))
          · rw [hnp] at hst
            dsimp only at hst
            by_cases hne : np ≠ ""
            · rw [if_pos hne] at hst
              have hsR : stR = reg ++ [⟨np, ⟨q.1⟩, "IMG_" ++ idGen ctr, i⟩] := by
                cases hpres : opts.preserveImageMarkdown with
                | false =>
                  rw [hpres, if_neg (by decide)] at hst
                  simp only [Prod.mk.injEq] at hst
                  exact hst.2.1.symm
                | true =>
                  rw [hpres, if_pos rfl] at hst
                  simp only [Prod.mk.injEq] at hst
                  exact hst.2.1.symm
              have hsF : stF = (if np ∈ refs then refs else refs ++ [np]) := by
                cases hpres : opts.preserveImageMarkdown with
                | false =>
                  rw [hpres, if_neg (by decide)] at hst
                  simp only [Prod.mk.injEq] at hst
                  exact hst.2.2.symm
                | true =>
                  rw [hpres, if_pos rfl] at hst
                  simp only [Prod.mk.injEq] at hst
                  exact hst.2.2.symm
              have hsO : opts.preserveImageMarkdown = false →
                  stO = markerTag ("IMG_" ++ idGen ctr) := by
                intro hpres
                rw [hpres, if_neg (by decide)] at hst
                simp only [Prod.mk.injEq] at hst
                exact hst.1.symm
              subst hsR; subst hsF
              have hnpF : np ∈ (if np ∈ refs then refs else refs ++ [np]) := by
                by_cases hin : np ∈ refs
                · rw [if_pos hin]; exact hin
                · rw [if_neg hin]; exact List.mem_append_right refs (List.mem_cons_self np [])
              refine ⟨hctr, ?_, ?_, ?_⟩
              · intro x hx
                refine g2 x ?_
                by_cases hin : np ∈ refs
                · rw [if_pos hin]; exact hx
                · rw [if_neg hin]; exact List.mem_append_left _ hx
              · intro r hr
                rcases g3 r hr with hin | ⟨hp, ⟨k, hk1, hk2, hk3⟩, htxt⟩
                · rcases List.mem_append.mp hin with hin1 | hin1
                  · exact Or.inl hin1
                  · have hrentry : r = ⟨np, ⟨q.1⟩, "IMG_" ++ idGen ctr, i⟩ :=
                      List.mem_singleton.mp hin1
                    subst hrentry
                    refine Or.inr ⟨g2 np hnpF, ⟨ctr, Nat.le_refl ctr, g1, rfl⟩, ?_⟩
                    intro hpre
                    refine ⟨[], out1, ?_⟩
                    show stO ++ out1 = [] ++ markerTag ("IMG_" ++ idGen ctr) ++ out1
                    rw [List.nil_append, hsO hpre]
                · refine Or.inr ⟨hp, ⟨k, Nat.le_trans (Nat.le_succ ctr) hk1, hk2, hk3⟩, ?_⟩
                  intro hpre
                  obtain ⟨pre, post, hsplit⟩ := htxt hpre
                  refine ⟨stO ++ pre, post, ?_⟩
                  rw [hsplit]
                  simp [List.append_assoc]
              · intro h1 h2
                refine g4 ?_ ?_
                · rw [List.map_append]
                  rw [List.nodup_append]
                  refine ⟨h1, List.nodup_singleton _, ?_⟩
                  intro a ha hb
                  simp only [List.map_cons, List.map_nil, List.mem_singleton] at hb
                  obtain ⟨r0, hr0, hr0id⟩ := List.mem_map.mp ha
                  rw [hb] at hr0id
                  exact h2 r0 hr0 ctr (Nat.le_refl ctr) hr0id
                · intro r hr k hk
                  rcases List.mem_append.mp hr with hin1 | hin1
                  · exact h2 r hin1 k (Nat.le_trans (Nat.le_succ ctr) hk)
                  · have hrentry : r = ⟨np, ⟨q.1⟩, "IMG_" ++ idGen ctr, i⟩ :=
                      List.mem_singleton.mp hin1
                    subst hrentry
                    intro hcon
                    have := hinj ctr k hcon
                    omega
            · rw [if_neg hne] at hst
              simp only [Prod.mk.injEq] at hst
              obtain ⟨hsO, hsR, hsF⟩ := hst
              subst hsR; subst hsF
              refine ⟨hctr, g2, ?_, ?_⟩
              · intro r hr
                rcases g3 r hr with hin | ⟨hp, ⟨k, hk1, hk2, hk3⟩, htxt⟩
                · exact Or.inl hin
                · refine Or.inr ⟨hp, ⟨k, Nat.le_trans (Nat.le_succ ctr) hk1, hk2, hk3⟩, ?_⟩
                  intro hpre
                  obtain ⟨pre, post, hsplit⟩ := htxt hpre
                  refine ⟨stO ++ pre, post, ?_⟩
                  rw [hsplit]
                  simp [List.append_assoc]
              · intro h1 h2
                exact g4 h1 (fun r hr k hk => h2 r hr k (Nat.le_trans (Nat.le_succ ctr) hk))
        by_cases hlen : q.2.2.2.length ≤ rest.length
        · rw [if_pos hlen] at h
          exact hgen _ _ _ rfl _ _ h
        · rw [if_neg hlen] at h
          exact hgen _ _ _ rfl _ _ h

/-- C9: for any markdown input processed by `process_image_references`
(image handling enabled), with marker ids drawn from an injective uuid
supply: the marker ids recorded in the image registry are pairwise
distinct, so each marker id has exactly one corresponding `ImageRef`
entry; every registry entry's marker id is one drawn from the supply and —
unless `preserve_image_markdown` is set — its marker tag
`<en-media-marker id="..."></en-media-marker>` is emitted into the output
text; and every normalized path referenced by a registry entry is a member
of the resource-reference set returned by `get_resource_references`. -/
theorem C9_image_registry (idGen : Nat → String)
    (hinj : ∀ k k' : Nat, "IMG_" ++ idGen k = "IMG_" ++ idGen k' → k = k')
    (opts : MdOptions) (s : List Char) :
    ((processImageReferencesMd idGen opts s).2.1.map (fun r => r.markerId)).Nodup
    ∧ (∀ r ∈ (processImageReferencesMd idGen opts s).2.1,
        r.path ∈ (processImageReferencesMd idGen opts s).2.2
        ∧ ∃ k, r.markerId = "IMG_" ++ idGen k)
    ∧ (opts.preserveImageMarkdown = false →
        ∀ r ∈ (processImageReferencesMd idGen opts s).2.1,
          ∃ pre post, (processImageReferencesMd idGen opts s).1
            = pre ++ markerTag r.markerId ++ post) := by
  rcases hres : imgScan idGen opts s 0 0 [] [] with ⟨out, ctr2, reg2, refs2⟩
  have hres2 : imgScanF idGen opts s.length s 0 0 [] [] = (out, ctr2, reg2, refs2) := hres
  have hunf : processImageReferencesMd idGen opts s = (out, reg2, refs2) := by
    simp only [processImageReferencesMd, hres]
  obtain ⟨-, -, g3, g4⟩ :=
    imgScanF_inv idGen opts hinj s.length s 0 0 [] [] out ctr2 reg2 refs2 hres2
  rw [hunf]
  refine ⟨?_, ?_, ?_⟩
  · exact (g4 (by simp) (fun r hr => absurd hr (List.not_mem_nil r))).1
  · intro r hr
    rcases g3 r hr with hin | ⟨hp, ⟨k, -, -, hk3⟩, -⟩
    · exact absurd hin (List.not_mem_nil r)
    · exact ⟨hp, k, hk3⟩
  · intro hpre r hr
    rcases g3 r hr with hin | ⟨-, -, htxt⟩
    · exact absurd hin (List.not_mem_nil r)
    · exact htxt hpre

theorem C9_image_registry_witness :
    (((processImageReferencesMd idGenA {} "![a](p.png) ![[q.png]]".data).2.1.map
        (fun r => r.markerId)).Nodup)
    ∧ (∀ r ∈ (processImageReferencesMd idGenA {} "![a](p.png) ![[q.png]]".data).2.1,
        r.path ∈ (processImageReferencesMd idGenA {} "![a](p.png) ![[q.png]]".data).2.2
        ∧ ∃ k, r.markerId = "IMG_" ++ idGenA k)
    ∧ (MdOptions.preserveImageMarkdown {} = false →
        ∀ r ∈ (processImageReferencesMd idGenA {} "![a](p.png) ![[q.png]]".data).2.1,
          ∃ pre post, (processImageReferencesMd idGenA {} "![a](p.png) ![[q.png]]".data).1
            = pre ++ markerTag r.markerId ++ post) :=
  C9_image_registry idGenA
    (by
      intro k k' h
      have hl := congrArg (fun t : String => t.data.length) h
      simp only [idGenA, String.data_append, List.length_append,
        List.length_replicate] at hl
      omega)
    {} "![a](p.png) ![[q.png]]".data

/-- C4 (code bug): the input `<scr<script>a</script>ipt x` contains a
`<script>...</script>` block, yet `_clean_html` leaves the substring
`<script` in its output — the regex `<script[^>]*>.*?</script>` removes the
inner block and thereby splices the surrounding fragments into a fresh
`<script` that is never rescanned, so the full sanitised ENML note also
still contains `<script`.  This refutes the whitelist-enforcement property;
the intent of full removal is documented in the code's own comment and
asserted by `test_enml_processor.test_clean_html`. -/
theorem C4_script_removal_bypass :
    strContains "<scr<script>a</script>ipt x" "<script>" = true
    ∧ strContains "<scr<script>a</script>ipt x" "</script>" = true
    ∧ String.mk (cleanHtml srcProhibitedElements srcProhibitedAttributes
        "<scr<script>a</script>ipt x".data) = "<script x"
    ∧ strContains (enmlSanitize "<scr<script>a</script>ipt x") "<script" = true := by
  refine ⟨by decide, by decide, by decide, by decide⟩

/-- C5 counterexample: the ENML sanitiser is not idempotent — running
`process_html_to_enml` on its own output for the one-character note `a`
yields a different string. -/
theorem C5_idempotence_counterexample :
    enmlSanitize (enmlSanitize "a") ≠ enmlSanitize "a" := by
  decide

/-- C5 (amended): a second sanitiser run is not the identity on sanitised
output: it wraps the previous run's whole CDATA envelope inside a fresh
`<en-note>`/CDATA envelope (the inner DOCTYPE declaration is stripped but
the inner `<![CDATA[` / `]]>` and `<en-note>` markup survives as content)
and appends a further `<div><br/></div>` before the new closing tag, as the
exact outputs of one and two runs on the note `a` show. -/
theorem pstarts_self_append : ∀ (p t : List Char), pstarts p (p ++ t) = true := by
  intro p
  induction p with
  | nil => intro t; rfl
  | cons c p ih => intro t; simp [pstarts, ih t]

theorem extractScanF_nil (idGen : Nat → String) :
    ∀ (fuel ctr : Nat) (blocks : List (String × CodeBlock)),
      extractScanF idGen fuel [] ctr blocks = ([], blocks) := by
  intro fuel ctr blocks
  cases fuel <;> rfl

theorem splitFirst_nl_head (rest : List Char) :
    splitFirst ['\n'] ('\n' :: rest) = some ([], rest) := by
  simp [splitFirst, pstarts]

theorem splitFirst_none_of_cons {p : List Char} {c : Char} {T : List Char}
    (h : splitFirst p (c :: T) = none) : splitFirst p T = none := by
  rw [splitFirst] at h
  by_cases hp : pstarts p (c :: T) = true
  · rw [if_pos hp] at h
    exact absurd h (by simp)
  · rw [if_neg hp] at h
    exact Option.map_eq_none'.mp h

theorem splitFirst_fence :
    ∀ (T : List Char), splitFirst ['`', '`', '`'] T = none → T.getLast? ≠ some '`' →
      splitFirst ['`', '`', '`'] (T ++ ['`', '`', '`']) = some (T, []) := by
  intro T
  induction T with
  | nil =>
    intro _ _
    simp [splitFirst, pstarts]
  | cons c T ih =>
    intro hns hlast
    have hps : pstarts ['`', '`', '`'] (c :: (T ++ ['`', '`', '`'])) = false := by
      by_cases hc : c = '`'
      · subst hc
        cases T with
        | nil => exact absurd rfl hlast
        | cons d T2 =>
          by_cases hd : d = '`'
          · subst hd
            cases T2 with
            | nil =>
              exact absurd (by rfl) hlast
            | cons e T3 =>
              by_cases he : e = '`'
              · subst he
                exfalso
                rw [splitFirst, if_pos (by simp [pstarts])] at hns
                exact absurd hns (by simp)
              · simp [pstarts, Ne.symm he]
          · simp [pstarts, Ne.symm hd]
      · simp [pstarts, Ne.symm hc]
    show splitFirst ['`', '`', '`'] (c :: (T ++ ['`', '`', '`'])) = some (c :: T, [])
    rw [splitFirst, if_neg (by simp [hps])]
    have hT : splitFirst ['`', '`', '`'] T = none := splitFirst_none_of_cons hns
    have hlT : T.getLast? ≠ some '`' := by
      cases T with
      | nil => simp
      | cons d T2 =>
        rw [List.getLast?_cons_cons] at hlast
        exact hlast
    rw [ih hT hlT]
    rfl

theorem matchExtractFence_block {T : List Char}
    (hns : splitFirst ['`', '`', '`'] T = none) (hlast : T.getLast? ≠ some '`') :
    matchExtractFence ('`' :: '`' :: '`' :: '\n' :: (T ++ ['`', '`', '`']))
      = some ([], T, []) := by
  show (match splitFirst ['\n'] ('\n' :: (T ++ ['`', '`', '`'])) with
        | some lr =>
          match splitFirst ['`', '`', '`'] lr.2 with
          | some br => some (lr.1, br.1, br.2)
          | none => none
        | none => none) = some ([], T, [])
  rw [splitFirst_nl_head]
  dsimp only
  rw [splitFirst_fence T hns hlast]

theorem mem_replaceAll_of_ne {c d : Char} {r : List Char} (hcd : c ≠ d) :
    ∀ (n : Nat) (s : List Char), s.length ≤ n → c ∈ s → c ∈ replaceAll s [d] r := by
  intro n
  induction n with
  | zero =>
    intro s hlen hc
    rw [List.length_eq_zero.mp (Nat.le_zero.mp hlen)] at hc
    exact absurd hc (List.not_mem_nil c)
  | succ n ih =>
    intro s hlen hc
    cases s with
    | nil => exact absurd hc (List.not_mem_nil c)
    | cons x rest =>
      simp only [List.length_cons] at hlen
      by_cases hx : x = d
      · subst hx
        have hm : litMatcher [x] r (x :: rest) = some (r, rest) := by
          simp [litMatcher, pstarts]
        rw [replaceAll, scanSub_cons_match hm (Nat.le_refl _)]
        have hcr : c ∈ rest := by
          rcases List.mem_cons.mp hc with h | h
          · exact absurd h hcd
          · exact h
        exact List.mem_append_right r (ih rest (Nat.le_of_succ_le_succ hlen) hcr)
      · have hm : litMatcher [d] r (x :: rest) = none := by
          simp [litMatcher, pstarts, Ne.symm hx]
        rw [replaceAll, scanSub_cons_nomatch hm]
        rcases List.mem_cons.mp hc with h | h
        · exact h ▸ List.mem_cons_self x _
        · exact List.mem_cons_of_mem x (ih rest (Nat.le_of_succ_le_succ hlen) h)

theorem mem_replaceAll_of_repl {d x : Char} {r : List Char} (hx : x ∈ r) :
    ∀ (n : Nat) (s : List Char), s.length ≤ n → d ∈ s → x ∈ replaceAll s [d] r := by
  intro n
  induction n with
  | zero =>
    intro s hlen hd
    rw [List.length_eq_zero.mp (Nat.le_zero.mp hlen)] at hd
    exact absurd hd (List.not_mem_nil d)
  | succ n ih =>
    intro s hlen hd
    cases s with
    | nil => exact absurd hd (List.not_mem_nil d)
    | cons y rest =>
      simp only [List.length_cons] at hlen
      by_cases hy : y = d
      · subst hy
        have hm : litMatcher [y] r (y :: rest) = some (r, rest) := by
          simp [litMatcher, pstarts]
        rw [replaceAll, scanSub_cons_match hm (Nat.le_refl _)]
        exact List.mem_append_left _ hx
      · have hm : litMatcher [d] r (y :: rest) = none := by
          simp [litMatcher, pstarts, Ne.symm hy]
        rw [replaceAll, scanSub_cons_nomatch hm]
        have hdr : d ∈ rest := by
          rcases List.mem_cons.mp hd with h | h
          · exact absurd h.symm hy
          · exact h
        exact List.mem_cons_of_mem y (ih rest (Nat.le_of_succ_le_succ hlen) hdr)

theorem replacePass_nonws {d : Char} {r : List Char}
    (hr : ∃ x ∈ r, isPyWs x = false) {s : List Char}
    (hs : ∃ c ∈ s, isPyWs c = false) :
    ∃ c ∈ replaceAll s [d] r, isPyWs c = false := by
  obtain ⟨c, hcs, hcw⟩ := hs
  by_cases hcd : c = d
  · obtain ⟨x, hxr, hxw⟩ := hr
    exact ⟨x, mem_replaceAll_of_repl hxr s.length s (Nat.le_refl _) (hcd ▸ hcs), hxw⟩
  · exact ⟨c, mem_replaceAll_of_ne hcd s.length s (Nat.le_refl _) hcs, hcw⟩

theorem escapeCodeHtml_nonws {T : List Char} (h : ∃ c ∈ T, isPyWs c = false) :
    ∃ c ∈ escapeCodeHtml T, isPyWs c = false := by
  unfold escapeCodeHtml
  exact replacePass_nonws ⟨'&', by decide, by decide⟩
    (replacePass_nonws ⟨'&', by decide, by decide⟩
      (replacePass_nonws ⟨'&', by decide, by decide⟩
        (replacePass_nonws ⟨'&', by decide, by decide⟩
          (replacePass_nonws ⟨'&', by decide, by decide⟩ h))))

theorem escapeCodeHtml_no_nl {T : List Char} (h : '\n' ∉ T) :
    '\n' ∉ escapeCodeHtml T := by
  unfold escapeCodeHtml
  refine replaceAll_not_mem _ _ _ _ (Nat.le_refl _) ?_ (by decide)
  refine replaceAll_not_mem _ _ _ _ (Nat.le_refl _) ?_ (by decide)
  refine replaceAll_not_mem _ _ _ _ (Nat.le_refl _) ?_ (by decide)
  refine replaceAll_not_mem _ _ _ _ (Nat.le_refl _) ?_ (by decide)
  exact replaceAll_not_mem _ _ _ _ (Nat.le_refl _) h (by decide)

theorem mem_dropWhile_of_not {c : Char} {p : Char → Bool} (hc : p c = false) :
    ∀ (s : List Char), c ∈ s → c ∈ s.dropWhile p := by
  intro s
  induction s with
  | nil => intro h; exact absurd h (List.not_mem_nil c)
  | cons y rest ih =>
    intro h
    by_cases hy : p y = true
    · rw [List.dropWhile_cons_of_pos hy]
      rcases List.mem_cons.mp h with h1 | h1
      · subst h1; rw [hc] at hy; exact absurd hy (by simp)
      · exact ih h1
    · rw [List.dropWhile_cons_of_neg hy]
      exact h

theorem pyStrip_ne_nil {s : List Char} (h : ∃ c ∈ s, isPyWs c = false) :
    pyStrip s ≠ [] := by
  obtain ⟨c, hcs, hcw⟩ := h
  have h1 : c ∈ pyLstrip s := mem_dropWhile_of_not hcw s hcs
  have h2 : c ∈ pyRstrip (pyLstrip s) := by
    rw [pyRstrip]
    rw [List.mem_reverse]
    exact mem_dropWhile_of_not hcw _ (List.mem_reverse.mpr h1)
  exact List.ne_nil_of_mem h2

theorem pySplitChar_no_sep {sep : Char} :
    ∀ (s : List Char), sep ∉ s → pySplitChar sep s = [s] := by
  intro s
  induction s with
  | nil => intro _; rfl
  | cons c rest ih =>
    intro h
    simp only [List.mem_cons, not_or] at h
    rw [pySplitChar]
    simp [Ne.symm h.1, ih h.2]

theorem wrapCodeLines_single {e : List Char} (hnl : '\n' ∉ e) (hnb : pyStrip e ≠ []) :
    wrapCodeLines e = "<div>".data ++ e ++ "</div>".data := by
  unfold wrapCodeLines
  rw [pySplitLines, pySplitChar_no_sep e hnl]
  simp [List.enum, hnb]

theorem extract_single_block {T : List Char}
    (hns : splitFirst ['`', '`', '`'] T = none) (hlast : T.getLast? ≠ some '`') :
    extractScan idGenA ('`' :: '`' :: '`' :: '\n' :: (T ++ ['`', '`', '`'])) 0 []
      = ("CODE_BLOCK_".data ++ ['\n'],
         [("CODE_BLOCK_", ⟨⟨[]⟩, ⟨T⟩⟩)]) := by
  show extractScanF idGenA ('`' :: '`' :: '`' :: '\n' :: (T ++ ['`', '`', '`'])).length
      ('`' :: '`' :: '`' :: '\n' :: (T ++ ['`', '`', '`'])) 0 [] = _
  simp only [List.length_cons]
  rw [extractScanF, matchExtractFence_block hns hlast]
  dsimp only
  simp only [List.length_nil]
  rw [if_pos (Nat.zero_le _)]
  rw [extractScanF_nil]
  rfl

theorem replace_marker (r : List Char) :
    replaceAll ("CODE_BLOCK_".data ++ ['\n']) "CODE_BLOCK_".data r = r ++ ['\n'] := by
  have hm : litMatcher "CODE_BLOCK_".data r ("CODE_BLOCK_".data ++ ['\n'])
      = some (r, ['\n']) := by
    have hdrop : (("CODE_BLOCK_".data : List Char) ++ ['\n']).drop
        ("CODE_BLOCK_".data : List Char).length = ['\n'] := by decide
    rw [litMatcher, if_pos (by decide), hdrop]
  rw [replaceAll, scanSub_match_of_lt hm (by decide)]
  have hm2 : litMatcher "CODE_BLOCK_".data r ['\n'] = none := by
    rw [litMatcher, if_neg (by decide)]
  rw [scanSub_cons_nomatch hm2, scanSub_nil]

/-- C6 counterexample: the body `T = " "` (one space) contains no triple
backtick, yet extracting the fenced block and restoring it yields
`<div><br/></div>\n`, in which the space character of `T` does not appear at
all — `restore_code_blocks` renders any all-whitespace line as a bare
`<div><br/></div>`, so `T`'s characters are not present verbatim. -/
theorem C6_roundtrip_counterexample :
    strContainsL ['`', '`', '`'] [' '] = false
    ∧ restoreCodeBlocks (extractCodeBlocks idGenA "```\n ```").1
        (extractCodeBlocks idGenA "```\n ```").2 = "<div><br/></div>\n"
    ∧ strContains (restoreCodeBlocks (extractCodeBlocks idGenA "```\n ```").1
        (extractCodeBlocks idGenA "```\n ```").2) " " = false := by
  refine ⟨by decide, by decide, by decide⟩

/-- C6 (amended): for a single-line, non-blank body `T` — no newline, no
triple backtick, not ending in a backtick, containing at least one
non-whitespace character — extracting the fenced block ```` ```\nT``` ````
with `extract_code_blocks` and restoring it with `restore_code_blocks`
yields exactly `<div>` ++ `escapeCodeHtml T` ++ `</div>` ++ a newline: the
body's characters are present with `&`, `<`, `>`, `*`, `_` HTML-escaped
exactly once (a single application of the escape chain, ampersand first).
Bodies that are all-whitespace, multi-line or backtick-terminated are
excluded: the source drops or rewrites characters there. -/
theorem C6_roundtrip_amended (T : List Char)
    (hnl : '\n' ∉ T)
    (hns : strContainsL ['`', '`', '`'] T = false)
    (hlast : T.getLast? ≠ some '`')
    (hnb : ∃ c ∈ T, isPyWs c = false) :
    restoreCodeBlocks
        (extractCodeBlocks idGenA ⟨'`' :: '`' :: '`' :: '\n' :: (T ++ ['`', '`', '`'])⟩).1
        (extractCodeBlocks idGenA ⟨'`' :: '`' :: '`' :: '\n' :: (T ++ ['`', '`', '`'])⟩).2
      = ⟨"<div>".data ++ escapeCodeHtml T ++ "</div>".data ++ ['\n']⟩ := by
  have hsf : splitFirst ['`', '`', '`'] T = none := by
    rcases h : splitFirst ['`', '`', '`'] T with _ | p
    · rfl
    · rw [strContainsL, h] at hns
      simp at hns
  have hext := extract_single_block hsf hlast
  have hecb : extractCodeBlocks idGenA ⟨'`' :: '`' :: '`' :: '\n' :: (T ++ ['`', '`', '`'])⟩
      = (⟨"CODE_BLOCK_".data ++ ['\n']⟩, [("CODE_BLOCK_", ⟨⟨[]⟩, ⟨T⟩⟩)]) := by
    unfold extractCodeBlocks
    show (⟨(extractScan idGenA ('`' :: '`' :: '`' :: '\n' :: (T ++ ['`', '`', '`'])) 0 []).1⟩,
          (extractScan idGenA ('`' :: '`' :: '`' :: '\n' :: (T ++ ['`', '`', '`'])) 0 []).2)
        = ((⟨"CODE_BLOCK_".data ++ ['\n']⟩ : String),
           [("CODE_BLOCK_", (⟨⟨[]⟩, ⟨T⟩⟩ : CodeBlock))])
    rw [hext]
  rw [hecb]
  unfold restoreCodeBlocks
  simp only [List.foldl_cons, List.foldl_nil]
  refine congrArg String.mk ?_
  show replaceAll ("CODE_BLOCK_".data ++ ['\n']) "CODE_BLOCK_".data
      (wrapCodeLines (escapeCodeHtml T)) = _
  rw [replace_marker, wrapCodeLines_single (escapeCodeHtml_no_nl hnl)
    (pyStrip_ne_nil (escapeCodeHtml_nonws hnb))]

theorem C6_roundtrip_amended_witness :
    restoreCodeBlocks
        (extractCodeBlocks idGenA
          ⟨'`' :: '`' :: '`' :: '\n' :: ("a < b_c".data ++ ['`', '`', '`'])⟩).1
        (extractCodeBlocks idGenA
          ⟨'`' :: '`' :: '`' :: '\n' :: ("a < b_c".data ++ ['`', '`', '`'])⟩).2
      = ⟨"<div>".data ++ escapeCodeHtml "a < b_c".data ++ "</div>".data ++ ['\n']⟩ :=
  C6_roundtrip_amended "a < b_c".data (by decide) (by decide) (by decide) (by decide)

theorem fenceLazyBody_full (tail : List Char) :
    ∀ (body : List Char), '`' ∉ body →
      fenceLazyBody (body ++ '\n' :: '`' :: '`' :: '`' :: tail) = some (body, tail) := by
  intro body
  induction body with
  | nil =>
    intro _
    simp [fenceLazyBody, pstarts]
  | cons c body ih =>
    intro h
    simp only [List.mem_cons, not_or] at h
    obtain ⟨hc, hb⟩ := h
    show fenceLazyBody (c :: (body ++ '\n' :: '`' :: '`' :: '`' :: tail)) = some (c :: body, tail)
    rw [fenceLazyBody]
    have hA : pstarts ['\n', '`', '`', '`']
        (c :: (body ++ '\n' :: '`' :: '`' :: '`' :: tail)) = false := by
      by_cases hcn : c = '\n'
      · subst hcn
        cases body with
        | nil => simp [pstarts]
        | cons d body2 =>
          have hd : ('`' : Char) ≠ d := by
            intro hq
            exact hb (hq ▸ List.mem_cons_self d body2)
          simp [pstarts, hd]
      · simp [pstarts, Ne.symm hcn]
    have hB : pstarts ['`', '`', '`']
        (c :: (body ++ '\n' :: '`' :: '`' :: '`' :: tail)) = false := by
      simp [pstarts, hc]
    rw [hA, hB]
    simp only [Bool.false_eq_true, if_false]
    rw [ih hb]
    rfl

theorem fenceTryA_newline {rest : List Char} {p : List Char × List Char}
    (hp : fenceLazyBody rest = some p) :
    ∀ (lang : List Char), '\n' ∉ lang → fenceTryA (lang ++ '\n' :: rest) = some p := by
  intro lang
  induction lang with
  | nil =>
    intro _
    show fenceTryA ('\n' :: rest) = some p
    rw [fenceTryA, if_pos rfl, hp]
  | cons c lang ih =>
    intro h
    simp only [List.mem_cons, not_or] at h
    show fenceTryA (c :: (lang ++ '\n' :: rest)) = some p
    rw [fenceTryA, if_neg (Ne.symm h.1)]
    exact ih h.2

/-- C7 counterexample: for the fenced block ```` ```python\nhello world\n``` ````
the pipeline's structural pass leaves the code content inline in the output
text — not a block id — and stores nothing in any side table: the text
output of `process_markdown` is exactly `hello world`, with no
`CODE_BLOCK` id anywhere, refuting the claim that the content is removed
and replaced by a stored block id. -/
theorem C7_code_fence_counterexample :
    (processMarkdown (fun _ => none) idGenA {} "```python\nhello world\n```").1
      = "hello world"
    ∧ strContains
        (processMarkdown (fun _ => none) idGenA {} "```python\nhello world\n```").1
        "CODE_BLOCK" = false := by
  refine ⟨by decide, by decide⟩

/-- C7 (amended): the structural pass used by the pipeline is
`remove_code_block_markers`, which deletes the fence delimiters and the
optional language-tag line and keeps the fenced content itself inline,
verbatim: no block id is introduced and no side table is produced
(`extract_code_blocks`, which implements the id/side-table behaviour, has
no caller in the pipeline). -/
theorem C7_code_fence_amended (lang body : List Char)
    (hl : '\n' ∉ lang) (hb : '`' ∉ body) :
    removeCodeBlockMarkersMd ("```".data ++ lang ++ '\n' :: body ++ '\n' :: "```".data)
      = body := by
  rw [show ("```".data : List Char) = '`' :: '`' :: '`' :: [] from rfl]
  unfold removeCodeBlockMarkersMd
  simp only [List.append_assoc, List.cons_append, List.nil_append]
  have hm : matchCodeFence
      ('`' :: '`' :: '`' :: (lang ++ '\n' :: (body ++ '\n' :: '`' :: '`' :: '`' :: [])))
      = some (body, []) := by
    show (match fenceTryA (lang ++ '\n' :: (body ++ '\n' :: '`' :: '`' :: '`' :: [])) with
          | some p => some p
          | none =>
            fenceLazyBody (lang ++ '\n' :: (body ++ '\n' :: '`' :: '`' :: '`' :: [])))
        = some (body, [])
    rw [fenceTryA_newline (fenceLazyBody_full [] body hb) lang hl]
  rw [scanSub_cons_match hm (Nat.zero_le _), scanSub_nil, List.append_nil]

theorem C7_code_fence_amended_witness :
    '\n' ∉ "python".data ∧ '`' ∉ "x = 1\nprint(x)".data
    ∧ removeCodeBlockMarkersMd ("```".data ++ "python".data
        ++ '\n' :: "x = 1\nprint(x)".data ++ '\n' :: "```".data)
      = "x = 1\nprint(x)".data :=
  ⟨by decide, by decide,
    C7_code_fence_amended "python".data "x = 1\nprint(x)".data (by decide) (by decide)⟩

theorem C5_idempotence_amended :
    enmlSanitize "a"
      = "<![CDATA[<?xml version=\"1.0\" encoding=\"UTF-8\" standalone=\"no\"?>\n<!DOCTYPE en-note SYSTEM \"http://xml.evernote.com/pub/enml2.dtd\"><en-note>a<div><br/></div></en-note>]]>"
    ∧ enmlSanitize (enmlSanitize "a")
      = "<![CDATA[<?xml version=\"1.0\" encoding=\"UTF-8\" standalone=\"no\"?>\n<!DOCTYPE en-note SYSTEM \"http://xml.evernote.com/pub/enml2.dtd\"><en-note><![CDATA[<?xml version=\"1.0\" encoding=\"UTF-8\" standalone=\"no\"?><en-note>a<div><br/></div></en-note>]]><div><br/></div></en-note>]]>" := by
  refine ⟨by decide, by decide⟩

end MdToEnex
